import Mathlib

/-!
Verification of the automatic timetable generator
(src/academics/services/timetable_auto.py).

The Python module is embedded shallowly: its dictionaries become total
functions (a `defaultdict` lookup of a missing key observably returns the
default, so a dict is observed exactly as a total function), its sets become
duplicate-free lists with a guarded insert, its in-place mutation becomes
explicit state passing (each placement phase takes the board and the faculty
state and returns the updated ones; the backtracking searches, whose undo code
restores the mutated state exactly, are embedded as functions that keep the
pre-placement state for the next candidate), and a Python function that can
raise becomes a function into `Except String`.
-/

/-- The six week days, in the canonical order of the module's DAYS list. -/
inductive Day where
  | monday
  | tuesday
  | wednesday
  | thursday
  | friday
  | saturday
deriving DecidableEq

/-- DAYS = ["Monday", ..., "Saturday"]. -/
def DAYS : List Day :=
  [.monday, .tuesday, .wednesday, .thursday, .friday, .saturday]

/-- PERIODS = [1, ..., 7]. -/
def PERIODS : List Nat := [1, 2, 3, 4, 5, 6, 7]

/-- Subject identifier (`subject_id`, a string in the source). -/
abbrev Sid := String

/-- Faculty identifier (`faculty_id`, an integer key in the source). -/
abbrev Fid := Nat

/-- A (day, period) cell of the weekly grid. -/
abbrev Slot := Day × Nat

/-- A contiguous run of periods used for practical subjects. -/
abbrev Block := List Nat

def THEORY_REQUIRED_COUNT : Nat := 6
def PRACTICAL_REQUIRED_COUNT : Nat := 3
def THEORY_PERIODS_PER_SUBJECT : Nat := 5
def PRACTICAL_PERIODS_PER_SUBJECT : Nat := 3
def CRT_PERIODS_PER_WEEK : Nat := 2
def MENTORING_PERIODS_PER_WEEK : Nat := 1
def MAX_DAILY_FACULTY_WORKLOAD : Nat := 6
def MAX_WEEKLY_FACULTY_WORKLOAD : Nat := 30

def VALID_PRACTICAL_BLOCKS : List Block := [[1, 2, 3], [2, 3, 4], [5, 6, 7]]

def MORNING_BLOCKS : List Block := [[1, 2, 3], [2, 3, 4]]

def AFTERNOON_BLOCKS : List Block := [[5, 6, 7]]

/-- `is_valid_practical_block(block)`. -/
def is_valid_practical_block (blk : Block) : Bool :=
  decide (blk ∈ VALID_PRACTICAL_BLOCKS)

/-- The board: day × period → optional subject id (`board[day][period]`). -/
abbrev Board := Day → Nat → Option Sid

/-- `_initialize_board()`: every cell None. -/
def initialize_board : Board := fun _ _ => none

/-- `board[day][period] = v`. -/
def setCell (b : Board) (d : Day) (p : Nat) (v : Option Sid) : Board :=
  fun d2 p2 => if d2 = d ∧ p2 = p then v else b d2 p2

/-- `board[day].get(period)`: None when the period key is outside 1..7. -/
def boardGet (b : Board) (d : Day) (p : Nat) : Option Sid :=
  if 1 ≤ p ∧ p ≤ 7 then b d p else none

/-- `get_all_slots()`: the 42 cells in day-major, period-ascending order. -/
def get_all_slots : List Slot :=
  DAYS.flatMap (fun d => PERIODS.map (fun p => (d, p)))

/-- Faculty occupancy: per-faculty busy set of slots, per-(faculty, day) load
counter and per-faculty weekly load counter (the dict triple
`busy, day_load, week_load` built by `_build_external_faculty_occupancy`). -/
structure FacState where
  busy : Fid → List Slot
  dayLoad : Fid → Day → Nat
  weekLoad : Fid → Nat

/-- The empty occupancy (fresh defaultdicts). -/
def emptyFac : FacState :=
  { busy := fun _ => [], dayLoad := fun _ _ => 0, weekLoad := fun _ => 0 }

/-- Python `set.add`: duplicate-free insert. -/
def addSlot (l : List Slot) (s : Slot) : List Slot :=
  if s ∈ l then l else s :: l

/-- Python `set.discard`. -/
def removeSlot (l : List Slot) (s : Slot) : List Slot :=
  l.filter (fun t => decide (t ≠ s))

/-- `_assign_faculty(fid, day, period, busy, day_load, week_load)`: adds the
slot to the busy set and unconditionally increments both counters. -/
def assign_faculty (fid : Fid) (d : Day) (p : Nat) (st : FacState) : FacState :=
  { busy := fun f => if f = fid then addSlot (st.busy f) (d, p) else st.busy f
    dayLoad := fun f d2 =>
      if f = fid ∧ d2 = d then st.dayLoad f d2 + 1 else st.dayLoad f d2
    weekLoad := fun f => if f = fid then st.weekLoad f + 1 else st.weekLoad f }

/-- `_unassign_faculty`: removes the slot and decrements both counters,
floored at zero (`max(0, n - 1)` is truncated subtraction on Nat). -/
def unassign_faculty (fid : Fid) (d : Day) (p : Nat) (st : FacState) : FacState :=
  { busy := fun f => if f = fid then removeSlot (st.busy f) (d, p) else st.busy f
    dayLoad := fun f d2 =>
      if f = fid ∧ d2 = d then st.dayLoad f d2 - 1 else st.dayLoad f d2
    weekLoad := fun f => if f = fid then st.weekLoad f - 1 else st.weekLoad f }

/-- `_mark` inside `_build_external_faculty_occupancy`: a guarded assign that
returns unchanged when the slot is already busy. -/
def mark_busy (fid : Fid) (d : Day) (p : Nat) (st : FacState) : FacState :=
  if (d, p) ∈ st.busy fid then st else assign_faculty fid d p st

/-- `check_faculty_conflict`: busy at the slot, or at the daily cap, or at
the weekly cap. -/
def check_faculty_conflict (fid : Fid) (d : Day) (p : Nat) (st : FacState) : Bool :=
  decide ((d, p) ∈ st.busy fid) ||
  decide (st.dayLoad fid d ≥ MAX_DAILY_FACULTY_WORKLOAD) ||
  decide (st.weekLoad fid ≥ MAX_WEEKLY_FACULTY_WORKLOAD)

/-- `_copy_faculty_state`: rebuilds the busy sets (`set(slots)`) and copies
both counter dicts. -/
def copy_faculty_state (st : FacState) : FacState :=
  { busy := fun f => (st.busy f).map id
    dayLoad := fun f d => st.dayLoad f d
    weekLoad := fun f => st.weekLoad f }

/-! ## The tracker's operation language (claims C2, C3) -/

/-- One call into the occupancy tracker: the external loader's guarded
marking, an assignment, or a reversal. -/
inductive FacOp where
  | mark : Fid → Day → Nat → FacOp
  | assign : Fid → Day → Nat → FacOp
  | unassign : Fid → Day → Nat → FacOp

def applyFacOp (st : FacState) : FacOp → FacState
  | .mark f d p => mark_busy f d p st
  | .assign f d p => assign_faculty f d p st
  | .unassign f d p => unassign_faculty f d p st

def applyFacOps (st : FacState) (ops : List FacOp) : FacState :=
  ops.foldl applyFacOp st

/-- The spec's occupancy invariant: busy-set size = sum of per-day counts =
weekly count, for every faculty. -/
def OccInvariant (st : FacState) : Prop :=
  ∀ f : Fid,
    (st.busy f).length = (DAYS.map (fun d => st.dayLoad f d)).sum ∧
    (DAYS.map (fun d => st.dayLoad f d)).sum = st.weekLoad f

/-- An operation is safe when an assign targets a slot not currently busy and
an unassign targets a slot currently busy (marking is always safe). This is
how the generator itself always calls the tracker: every assign is guarded by
a `check_faculty_conflict` and every unassign undoes a previous assign. -/
def SafeFacOp (st : FacState) : FacOp → Prop
  | .mark _ _ _ => True
  | .assign f d p => (d, p) ∉ st.busy f
  | .unassign f d p => (d, p) ∈ st.busy f

def SafeFacOps : FacState → List FacOp → Prop
  | _, [] => True
  | st, op :: rest => SafeFacOp st op ∧ SafeFacOps (applyFacOp st op) rest

/-- Per-faculty bookkeeping invariant that is actually inductive: the busy
list is duplicate-free, the weekly counter is its length, and each per-day
counter is the length of its day's part of the busy list. -/
def StrongOcc (st : FacState) : Prop :=
  ∀ f : Fid,
    (st.busy f).Nodup ∧
    st.weekLoad f = (st.busy f).length ∧
    ∀ d : Day,
      st.dayLoad f d = ((st.busy f).filter (fun s => decide (s.1 = d))).length

theorem strongOcc_empty : StrongOcc emptyFac := by
  intro f
  refine ⟨List.nodup_nil, rfl, fun d => rfl⟩

theorem mem_DAYS (d : Day) : d ∈ DAYS := by cases d <;> decide

theorem sum_day_filter_length (l : List Slot) :
    (DAYS.map (fun d => (l.filter (fun s => decide (s.1 = d))).length)).sum
      = l.length := by
  induction l with
  | nil => decide
  | cons s l ih =>
    rcases s with ⟨sd, sp⟩
    cases sd <;> simp [List.filter_cons, DAYS] at ih ⊢ <;> omega

theorem length_pos_of_mem_filter {l : List Slot} {s : Slot} {p : Slot → Bool}
    (hs : s ∈ l) (hp : p s = true) : 1 ≤ (l.filter p).length :=
  List.length_pos_of_mem (List.mem_filter.mpr ⟨hs, hp⟩)

theorem filter_removeSlot_length {l : List Slot} (hnd : l.Nodup) {s : Slot}
    (hs : s ∈ l) (p : Slot → Bool) :
    ((removeSlot l s).filter p).length
      = (l.filter p).length - (if p s then 1 else 0) := by
  induction l with
  | nil => cases hs
  | cons t l ih =>
    rcases List.nodup_cons.mp hnd with ⟨htl, hnd2⟩
    by_cases hts : t = s
    · subst hts
      have hcong : List.filter (fun a => p a && !decide (a = t)) l
          = List.filter p l :=
        List.filter_congr (fun a ha => by
          have hat : ¬(a = t) := fun he => htl (he ▸ ha)
          simp [hat])
      by_cases hpt : p t <;>
        simp [removeSlot, List.filter_cons, hpt, hcong]
    · have hs2 : s ∈ l := by
        rcases List.mem_cons.mp hs with h1 | h2
        · exact absurd h1.symm hts
        · exact h2
      have key := ih hnd2 hs2
      have hbound : p s = true → 1 ≤ (l.filter p).length :=
        fun hps => length_pos_of_mem_filter hs2 hps
      by_cases hpt : p t <;> by_cases hps : p s <;>
        simp [removeSlot, List.filter_cons, hts, hpt, hps] at key hbound ⊢ <;>
        omega

theorem strongOcc_assign {st : FacState} (h : StrongOcc st) {f : Fid} {d : Day}
    {p : Nat} (hnb : (d, p) ∉ st.busy f) :
    StrongOcc (assign_faculty f d p st) := by
  intro f2
  rcases h f2 with ⟨hnd, hweek, hday⟩
  by_cases hf : f2 = f
  · subst hf
    refine ⟨?_, ?_, fun d2 => ?_⟩
    · simp only [assign_faculty, if_pos rfl, addSlot, if_neg hnb]
      exact List.nodup_cons.mpr ⟨hnb, hnd⟩
    · simp [assign_faculty, addSlot, hnb, hweek]
    · by_cases hd : d2 = d
      · subst hd
        simp [assign_faculty, addSlot, hnb, List.filter_cons, hday d2]
      · have hd2 : ¬(d = d2) := fun he => hd he.symm
        simp [assign_faculty, addSlot, hnb, List.filter_cons, hd, hd2,
          hday d2, hday d]
  · refine ⟨?_, ?_, fun d2 => ?_⟩ <;>
      simp [assign_faculty, hf, hnd, hweek, hday]

theorem strongOcc_unassign {st : FacState} (h : StrongOcc st) {f : Fid} {d : Day}
    {p : Nat} (hb : (d, p) ∈ st.busy f) :
    StrongOcc (unassign_faculty f d p st) := by
  intro f2
  rcases h f2 with ⟨hnd, hweek, hday⟩
  by_cases hf : f2 = f
  · subst hf
    refine ⟨?_, ?_, fun d2 => ?_⟩
    · simp only [unassign_faculty, if_pos rfl, removeSlot]
      exact List.Nodup.filter _ hnd
    · have key := filter_removeSlot_length hnd hb (fun _ => true)
      simp at key
      simp [unassign_faculty, hweek, key]
    · have key := filter_removeSlot_length hnd hb (fun s => decide (s.1 = d2))
      by_cases hd : d2 = d
      · subst hd
        have hge : 1 ≤ ((st.busy f2).filter (fun s => decide (s.1 = d2))).length :=
          length_pos_of_mem_filter hb (by simp)
        simp at key
        simp [unassign_faculty, hday d2]
        omega
      · have hd2 : ¬(d = d2) := fun he => hd he.symm
        simp [hd2] at key
        simp [unassign_faculty, hd, hday d2, key]
  · refine ⟨?_, ?_, fun d2 => ?_⟩ <;>
      simp [unassign_faculty, hf, hnd, hweek, hday]

theorem strongOcc_applyFacOp {st : FacState} (h : StrongOcc st) {op : FacOp}
    (hs : SafeFacOp st op) : StrongOcc (applyFacOp st op) := by
  cases op with
  | mark f d p =>
    by_cases hb : (d, p) ∈ st.busy f
    · simpa [applyFacOp, mark_busy, hb] using h
    · simpa [applyFacOp, mark_busy, hb] using strongOcc_assign h hb
  | assign f d p => exact strongOcc_assign h hs
  | unassign f d p => exact strongOcc_unassign h hs

theorem strongOcc_applyFacOps {ops : List FacOp} :
    ∀ {st : FacState}, StrongOcc st → SafeFacOps st ops →
      StrongOcc (applyFacOps st ops) := by
  induction ops with
  | nil => intro st h _; exact h
  | cons op rest ih =>
    intro st h hs
    exact ih (strongOcc_applyFacOp h hs.1) hs.2

theorem strongOcc_invariant {st : FacState} (h : StrongOcc st) :
    OccInvariant st := by
  intro f
  rcases h f with ⟨_, hweek, hday⟩
  have hsum := sum_day_filter_length (st.busy f)
  constructor
  · rw [show (DAYS.map fun d => st.dayLoad f d)
        = DAYS.map (fun d => ((st.busy f).filter (fun s => decide (s.1 = d))).length)
      from List.map_congr_left (fun d _ => hday d), hsum]
  · rw [show (DAYS.map fun d => st.dayLoad f d)
        = DAYS.map (fun d => ((st.busy f).filter (fun s => decide (s.1 = d))).length)
      from List.map_congr_left (fun d _ => hday d), hsum, hweek]

/-- C2, counterexample: starting from the state in which faculty 0 is already
busy at (Monday, 1), a second `_assign_faculty` for that same slot leaves the
busy set as it is but increments both the per-day and the weekly counter, so
the counters are not incremented "only on the first insertion". -/
theorem assign_faculty_not_idempotent :
    (Day.monday, 1) ∈ ((assign_faculty 0 .monday 1 emptyFac).busy 0) ∧
    ¬((assign_faculty 0 .monday 1 (assign_faculty 0 .monday 1 emptyFac)).dayLoad
        0 .monday = (assign_faculty 0 .monday 1 emptyFac).dayLoad 0 .monday) ∧
    ¬((assign_faculty 0 .monday 1 (assign_faculty 0 .monday 1 emptyFac)).weekLoad
        0 = (assign_faculty 0 .monday 1 emptyFac).weekLoad 0) := by
  decide

/-- C2, amended: `_assign_faculty` on a slot already in the faculty's busy set
leaves every busy set unchanged (the set insert is idempotent) but still
increments that faculty's per-day and weekly counters by one; the counters
are incremented on every call, not only on the first insertion of the slot. -/
theorem assign_faculty_on_busy_slot (fid : Fid) (d : Day) (p : Nat)
    (st : FacState) (h : (d, p) ∈ st.busy fid) :
    (assign_faculty fid d p st).busy = st.busy ∧
    (assign_faculty fid d p st).dayLoad fid d = st.dayLoad fid d + 1 ∧
    (assign_faculty fid d p st).weekLoad fid = st.weekLoad fid + 1 := by
  refine ⟨funext fun f => ?_, by simp [assign_faculty], by simp [assign_faculty]⟩
  by_cases hf : f = fid
  · subst hf
    simp [assign_faculty, addSlot, h]
  · simp [assign_faculty, hf]

theorem assign_faculty_on_busy_slot_witness :
    (Day.monday, 1) ∈ ((assign_faculty 0 .monday 1 emptyFac).busy 0) ∧
    ((assign_faculty 0 .monday 1 (assign_faculty 0 .monday 1 emptyFac)).busy
        = (assign_faculty 0 .monday 1 emptyFac).busy ∧
      (assign_faculty 0 .monday 1 (assign_faculty 0 .monday 1 emptyFac)).dayLoad
        0 .monday = (assign_faculty 0 .monday 1 emptyFac).dayLoad 0 .monday + 1 ∧
      (assign_faculty 0 .monday 1 (assign_faculty 0 .monday 1 emptyFac)).weekLoad
        0 = (assign_faculty 0 .monday 1 emptyFac).weekLoad 0 + 1) :=
  ⟨by decide, assign_faculty_on_busy_slot 0 .monday 1 _ (by decide)⟩

/-- C3, counterexample: the bookkeeping invariant does not hold in every state
reachable by arbitrary tracker operations: assigning the same slot twice
leaves a busy set of size 1 but a weekly counter of 2 (because
`_assign_faculty` increments counters unconditionally, unlike the loader's
guarded `_mark`). -/
theorem occupancy_invariant_not_universal :
    ¬ OccInvariant (applyFacOps emptyFac
        [.assign 0 .monday 1, .assign 0 .monday 1]) :=
  fun h => absurd (h 0) (by decide)

/-- C3, amended: in every state reachable from the empty occupancy by marking,
assigns and unassigns in which each assign targets a slot not currently in
that faculty's busy set and each unassign targets a slot currently in it (the
only way the generator ever calls the tracker: every assign is guarded by a
conflict check and every unassign reverses a previous assign), each faculty's
busy-set size equals the sum over the days of its per-day counters, which
equals its weekly counter. -/
theorem occupancy_invariant_of_safe_ops (ops : List FacOp)
    (h : SafeFacOps emptyFac ops) :
    OccInvariant (applyFacOps emptyFac ops) :=
  strongOcc_invariant (strongOcc_applyFacOps strongOcc_empty h)

theorem occupancy_invariant_of_safe_ops_witness :
    SafeFacOps emptyFac
      [.mark 1 .monday 2, .assign 1 .tuesday 3, .unassign 1 .monday 2] ∧
    OccInvariant (applyFacOps emptyFac
      [.mark 1 .monday 2, .assign 1 .tuesday 3, .unassign 1 .monday 2]) := by
  have hs : SafeFacOps emptyFac
      [.mark 1 .monday 2, .assign 1 .tuesday 3, .unassign 1 .monday 2] := by
    refine ⟨trivial, ?_, ?_, trivial⟩
    · show (Day.tuesday, 3) ∉ _
      decide
    · show (Day.monday, 2) ∈ _
      decide
  exact ⟨hs, occupancy_invariant_of_safe_ops _ hs⟩

/-! ## Board cell counting -/

/-- Number of filled cells of the board (cells holding a subject). -/
def filledCount (b : Board) : Nat :=
  (get_all_slots.filter (fun s => (b s.1 s.2).isSome)).length

theorem nodup_get_all_slots : get_all_slots.Nodup := by decide

theorem filter_length_update {α : Type} {l : List α} (hnd : l.Nodup)
    {x : α} (hx : x ∈ l) {p q : α → Bool} (hqx : q x = true) (hpx : p x = false)
    (hagree : ∀ a ∈ l, a ≠ x → q a = p a) :
    (l.filter q).length = (l.filter p).length + 1 := by
  induction l with
  | nil => cases hx
  | cons t l ih =>
    rcases List.nodup_cons.mp hnd with ⟨htl, hnd2⟩
    by_cases htx : t = x
    · subst htx
      have hrest : ∀ a ∈ l, q a = p a :=
        fun a ha => hagree a (List.mem_cons_of_mem t ha) (fun he => htl (he ▸ ha))
      rw [List.filter_cons, List.filter_cons, hqx, hpx,
        List.filter_congr hrest]
      simp
    · have hx2 : x ∈ l := by
        rcases List.mem_cons.mp hx with h1 | h2
        · exact absurd h1.symm htx
        · exact h2
      have key := ih hnd2 hx2
        (fun a ha hax => hagree a (List.mem_cons_of_mem t ha) hax)
      have hqp : q t = p t := hagree t (List.mem_cons_self t l) htx
      rw [List.filter_cons, List.filter_cons, hqp]
      by_cases hpt : p t <;> simp [hpt, key]

/-- Writing a subject into an empty in-range cell adds one filled cell. -/
theorem filledCount_setCell {b : Board} {d : Day} {p : Nat}
    (hin : (d, p) ∈ get_all_slots) (hempty : b d p = none) (sid : Sid) :
    filledCount (setCell b d p (some sid)) = filledCount b + 1 := by
  refine filter_length_update nodup_get_all_slots hin ?_ ?_ ?_
  · simp [setCell]
  · simp [hempty]
  · intro a _ hax
    rcases a with ⟨ad, ap⟩
    have : ¬(ad = d ∧ ap = p) := fun ⟨h1, h2⟩ => hax (by rw [h1, h2])
    simp [setCell, this]

/-- A cell not written keeps its value. -/
theorem setCell_other {b : Board} {d : Day} {p : Nat} {v : Option Sid}
    {d2 : Day} {p2 : Nat} (h : ¬(d2 = d ∧ p2 = p)) :
    setCell b d p v d2 p2 = b d2 p2 := by
  simp [setCell, h]

theorem setCell_same (b : Board) (d : Day) (p : Nat) (v : Option Sid) :
    setCell b d p v d p = v := by
  simp [setCell]

/-! ## Mentoring placement (claim C9) -/

/-- The preference list of `place_mentoring`: Saturday period 7, then the
remaining Saturday periods in descending order. -/
def mentoring_preferred : List Slot :=
  (Day.saturday, 7) ::
    ((PERIODS.reverse.filter (fun p => decide (p ≠ 7))).map
      (fun p => (Day.saturday, p)))

/-- The fallback list: for each day in canonical order, the periods in
descending order, skipping the preferred (Saturday) slots. -/
def mentoring_fallback : List Slot :=
  DAYS.flatMap (fun d =>
    (PERIODS.reverse.filter (fun p => decide ((d, p) ∉ mentoring_preferred))).map
      (fun p => (d, p)))

def mentoring_order : List Slot := mentoring_preferred ++ mentoring_fallback

/-- A slot qualifies for mentoring when it is empty on the board and free of
faculty conflict. -/
def mentoring_ok (b : Board) (fac : FacState) (fid : Fid) (s : Slot) : Bool :=
  decide (b s.1 s.2 = none) && !(check_faculty_conflict fid s.1 s.2 fac)

def place_mentoring_go (sid : Sid) (fid : Fid) (b : Board) (fac : FacState) :
    List Slot → Option (Board × FacState)
  | [] => none
  | s :: rest =>
    if b s.1 s.2 ≠ none then place_mentoring_go sid fid b fac rest
    else if check_faculty_conflict fid s.1 s.2 fac then
      place_mentoring_go sid fid b fac rest
    else some (setCell b s.1 s.2 (some sid), assign_faculty fid s.1 s.2 fac)

/-- `place_mentoring`: scan the preferred-then-fallback slots, write the
subject into the first qualifying slot and mark its faculty busy there;
`none` models the Python function returning False without touching state. -/
def place_mentoring (sid : Sid) (fid : Fid) (b : Board) (fac : FacState) :
    Option (Board × FacState) :=
  place_mentoring_go sid fid b fac mentoring_order

theorem place_mentoring_go_eq (sid : Sid) (fid : Fid) (b : Board)
    (fac : FacState) (l : List Slot) :
    place_mentoring_go sid fid b fac l =
      match l.find? (mentoring_ok b fac fid) with
      | some s => some (setCell b s.1 s.2 (some sid), assign_faculty fid s.1 s.2 fac)
      | none => none := by
  induction l with
  | nil => rfl
  | cons s rest ih =>
    by_cases h1 : b s.1 s.2 = none
    · by_cases h2 : check_faculty_conflict fid s.1 s.2 fac
      · simp [place_mentoring_go, List.find?_cons, mentoring_ok, h1, h2, ih]
      · simp [place_mentoring_go, List.find?_cons, mentoring_ok, h1, h2]
    · simp [place_mentoring_go, List.find?_cons, mentoring_ok, h1, ih]

/-- C9: `place_mentoring` scans Saturday period 7 first, then the remaining
Saturday periods in descending order, then all other (day, period) pairs with
periods descending and days in canonical order; it assigns the mentoring
subject to exactly the first slot of that sequence that is both empty on the
board and faculty-conflict-free, marking that faculty busy there (returning
the updated board and occupancy), and it returns None (the Python False)
exactly when no slot in the full sequence qualifies. -/
theorem place_mentoring_spec (sid : Sid) (fid : Fid) (b : Board)
    (fac : FacState) :
    mentoring_order = [(.saturday, 7), (.saturday, 6), (.saturday, 5), (.saturday, 4), (.saturday, 3), (.saturday, 2), (.saturday, 1), (.monday, 7), (.monday, 6), (.monday, 5), (.monday, 4), (.monday, 3), (.monday, 2), (.monday, 1), (.tuesday, 7), (.tuesday, 6), (.tuesday, 5), (.tuesday, 4), (.tuesday, 3), (.tuesday, 2), (.tuesday, 1), (.wednesday, 7), (.wednesday, 6), (.wednesday, 5), (.wednesday, 4), (.wednesday, 3), (.wednesday, 2), (.wednesday, 1), (.thursday, 7), (.thursday, 6), (.thursday, 5), (.thursday, 4), (.thursday, 3), (.thursday, 2), (.thursday, 1), (.friday, 7), (.friday, 6), (.friday, 5), (.friday, 4), (.friday, 3), (.friday, 2), (.friday, 1)] ∧
    place_mentoring sid fid b fac =
      (match mentoring_order.find? (mentoring_ok b fac fid) with
       | some s =>
         some (setCell b s.1 s.2 (some sid), assign_faculty fid s.1 s.2 fac)
       | none => none) ∧
    (place_mentoring sid fid b fac = none ↔
      ∀ s ∈ mentoring_order,
        ¬(b s.1 s.2 = none ∧ check_faculty_conflict fid s.1 s.2 fac = false)) := by
  refine ⟨by decide, place_mentoring_go_eq sid fid b fac mentoring_order, ?_⟩
  rw [place_mentoring, place_mentoring_go_eq]
  constructor
  · intro h s hs
    rcases hfind : mentoring_order.find? (mentoring_ok b fac fid) with _ | t
    · have := List.find?_eq_none.mp hfind s hs
      intro ⟨h1, h2⟩
      exact this (by simp [mentoring_ok, h1, h2])
    · rw [hfind] at h
      cases h
  · intro h
    rcases hfind : mentoring_order.find? (mentoring_ok b fac fid) with _ | t
    · rfl
    · have hmem := List.mem_of_find?_eq_some hfind
      have hok := List.find?_some hfind
      exfalso
      refine h t hmem ⟨?_, ?_⟩
      · rcases hb : b t.1 t.2 with _ | v
        · rfl
        · rw [mentoring_ok, hb] at hok
          simp at hok
      · rcases hc : check_faculty_conflict fid t.1 t.2 fac
        · rfl
        · rw [mentoring_ok, hc] at hok
          simp at hok

/-! ## CRT placement (claim C7) -/

/-- The fixed preference list of `place_crt`. -/
def crt_preferred : List Slot :=
  [(.tuesday, 1), (.thursday, 1), (.wednesday, 2), (.friday, 2),
   (.saturday, 2), (.monday, 2)]

/-- The fallback list: the whole grid in canonical day/period order minus the
preference set. -/
def crt_fallback : List Slot :=
  DAYS.flatMap (fun d =>
    (PERIODS.filter (fun p => decide ((d, p) ∉ crt_preferred))).map
      (fun p => (d, p)))

def crt_order : List Slot := crt_preferred ++ crt_fallback

/-- `abs(p_period - period) == 1` on the same day, over natural periods. -/
def crtAdjacent (q s : Slot) : Bool :=
  decide (q.1 = s.1) && (decide (q.2 = s.2 + 1) || decide (s.2 = q.2 + 1))

def place_crt_go (sid : Sid) (fid : Fid) :
    List Slot → Board → FacState → List Slot → Board × FacState × List Slot
  | [], b, fac, placed => (b, fac, placed)
  | s :: rest, b, fac, placed =>
    if placed.length ≥ CRT_PERIODS_PER_WEEK then (b, fac, placed)
    else if s.1 = Day.monday ∧ s.2 = 1 then place_crt_go sid fid rest b fac placed
    else if b s.1 s.2 ≠ none then place_crt_go sid fid rest b fac placed
    else if placed.any (fun q => crtAdjacent q s) then
      place_crt_go sid fid rest b fac placed
    else if check_faculty_conflict fid s.1 s.2 fac then
      place_crt_go sid fid rest b fac placed
    else
      place_crt_go sid fid rest (setCell b s.1 s.2 (some sid))
        (assign_faculty fid s.1 s.2 fac) (placed ++ [s])

/-- `place_crt`: walk the preference-then-fallback slots, placing up to two
CRT periods; returns the final board, occupancy, and the placed slots. -/
def place_crt (sid : Sid) (fid : Fid) (b : Board) (fac : FacState) :
    Board × FacState × List Slot :=
  place_crt_go sid fid crt_order b fac []

/-- The boolean the Python function returns: `len(placed) == 2`. -/
def place_crt_ok (sid : Sid) (fid : Fid) (b : Board) (fac : FacState) : Bool :=
  (place_crt sid fid b fac).2.2.length == CRT_PERIODS_PER_WEEK

theorem crt_order_sub : ∀ s ∈ crt_order, s ∈ get_all_slots := by decide

theorem place_crt_go_invariant (sid : Sid) (fid : Fid) (l : List Slot) :
    ∀ (b : Board) (fac : FacState) (placed : List Slot) (b0 : Board),
      (∀ s ∈ l, s ∈ get_all_slots) →
      placed.length ≤ 2 →
      (∀ s ∈ placed, ¬(s.1 = Day.monday ∧ s.2 = 1)) →
      placed.Pairwise (fun q s => ¬(q.1 = s.1 ∧ (q.2 = s.2 + 1 ∨ s.2 = q.2 + 1))) →
      (∀ s ∈ placed, b s.1 s.2 = some sid ∧ b0 s.1 s.2 = none) →
      (∀ d p, (d, p) ∉ placed → b d p = b0 d p) →
      filledCount b = filledCount b0 + placed.length →
      (place_crt_go sid fid l b fac placed).2.2.length ≤ 2 ∧
      (∀ s ∈ (place_crt_go sid fid l b fac placed).2.2,
        ¬(s.1 = Day.monday ∧ s.2 = 1)) ∧
      (place_crt_go sid fid l b fac placed).2.2.Pairwise
        (fun q s => ¬(q.1 = s.1 ∧ (q.2 = s.2 + 1 ∨ s.2 = q.2 + 1))) ∧
      (∀ s ∈ (place_crt_go sid fid l b fac placed).2.2,
        (place_crt_go sid fid l b fac placed).1 s.1 s.2 = some sid ∧
          b0 s.1 s.2 = none) ∧
      (∀ d p, (d, p) ∉ (place_crt_go sid fid l b fac placed).2.2 →
        (place_crt_go sid fid l b fac placed).1 d p = b0 d p) ∧
      filledCount (place_crt_go sid fid l b fac placed).1
        = filledCount b0 + (place_crt_go sid fid l b fac placed).2.2.length := by
  induction l with
  | nil =>
    intro b fac placed b0 _ h2 h3 h4 h5 h6 h7
    exact ⟨h2, h3, h4, h5, h6, h7⟩
  | cons s rest ih =>
    intro b fac placed b0 h1 h2 h3 h4 h5 h6 h7
    have hc2 : CRT_PERIODS_PER_WEEK = 2 := rfl
    have hsub : ∀ t ∈ rest, t ∈ get_all_slots :=
      fun t ht => h1 t (List.mem_cons_of_mem s ht)
    by_cases hstop : placed.length ≥ CRT_PERIODS_PER_WEEK
    · rw [show place_crt_go sid fid (s :: rest) b fac placed = (b, fac, placed)
        from by simp [place_crt_go, hstop]]
      exact ⟨h2, h3, h4, h5, h6, h7⟩
    · by_cases hmon : s.1 = Day.monday ∧ s.2 = 1
      · rw [show place_crt_go sid fid (s :: rest) b fac placed
            = place_crt_go sid fid rest b fac placed
          from by simp [place_crt_go, hstop, hmon]]
        exact ih b fac placed b0 hsub h2 h3 h4 h5 h6 h7
      · by_cases hfill : b s.1 s.2 = none
        · by_cases hadj : placed.any (fun q => crtAdjacent q s) = true
          · rw [show place_crt_go sid fid (s :: rest) b fac placed
                = place_crt_go sid fid rest b fac placed
              from by simp [place_crt_go, hstop, hmon, hfill, hadj]]
            exact ih b fac placed b0 hsub h2 h3 h4 h5 h6 h7
          · by_cases hconf : check_faculty_conflict fid s.1 s.2 fac = true
            · rw [show place_crt_go sid fid (s :: rest) b fac placed
                  = place_crt_go sid fid rest b fac placed
                from by simp [place_crt_go, hstop, hmon, hfill, hadj, hconf]]
              exact ih b fac placed b0 hsub h2 h3 h4 h5 h6 h7
            · rw [show place_crt_go sid fid (s :: rest) b fac placed
                  = place_crt_go sid fid rest (setCell b s.1 s.2 (some sid))
                      (assign_faculty fid s.1 s.2 fac) (placed ++ [s])
                from by simp [place_crt_go, hstop, hmon, hfill, hadj, hconf]]
              have hsnotin : s ∉ placed := fun hmem =>
                by rw [(h5 s hmem).1] at hfill; cases hfill
              have hb0s : b0 s.1 s.2 = none := by
                rw [← h6 s.1 s.2 (by simpa using hsnotin)]
                exact hfill
              refine ih _ _ _ b0 hsub ?_ ?_ ?_ ?_ ?_ ?_
              · simp only [List.length_append, List.length_cons,
                  List.length_nil]
                omega
              · intro t ht
                rcases List.mem_append.mp ht with htl | htr
                · exact h3 t htl
                · rw [List.mem_singleton.mp htr]
                  exact hmon
              · refine List.pairwise_append.mpr ⟨h4, List.pairwise_singleton _ _, ?_⟩
                intro q hq t ht
                rw [List.mem_singleton.mp ht]
                have hqf : crtAdjacent q s = false := by
                  rcases hcr : crtAdjacent q s
                  · rfl
                  · exact absurd (List.any_eq_true.mpr ⟨q, hq, hcr⟩) hadj
                intro ⟨hd, hp⟩
                rw [crtAdjacent, decide_eq_true hd] at hqf
                rcases hp with hp | hp <;>
                  simp [decide_eq_true hp] at hqf
              · intro t ht
                rcases List.mem_append.mp ht with htl | htr
                · have hts : t ≠ s := fun he => hsnotin (he ▸ htl)
                  have : ¬(t.1 = s.1 ∧ t.2 = s.2) := fun ⟨ha, hb⟩ =>
                    hts (Prod.ext ha hb)
                  rw [setCell_other this]
                  exact ⟨(h5 t htl).1, (h5 t htl).2⟩
                · rw [List.mem_singleton.mp htr]
                  exact ⟨setCell_same b s.1 s.2 (some sid), hb0s⟩
              · intro d p hdp
                have hnp : (d, p) ∉ placed := fun hmem =>
                  hdp (List.mem_append.mpr (Or.inl hmem))
                have hns : (d, p) ≠ s := by
                  intro he
                  apply hdp
                  rw [he]
                  exact List.mem_append.mpr (Or.inr (List.mem_singleton.mpr rfl))
                have : ¬(d = s.1 ∧ p = s.2) := fun ⟨ha, hb⟩ =>
                  hns (by rw [ha, hb])
                rw [setCell_other this]
                exact h6 d p hnp
              · have hin : (s.1, s.2) ∈ get_all_slots := by
                  rw [Prod.mk.eta]
                  exact h1 s (List.mem_cons_self s rest)
                rw [filledCount_setCell hin hfill sid, h7]
                simp only [List.length_append, List.length_cons, List.length_nil]
                omega
        · rw [show place_crt_go sid fid (s :: rest) b fac placed
              = place_crt_go sid fid rest b fac placed
            from by simp [place_crt_go, hstop, hmon, hfill]]
          exact ih b fac placed b0 hsub h2 h3 h4 h5 h6 h7

/-- C7: `place_crt` returns true exactly when the placed list holds 2 CRT
periods, and it never places more than 2 (so false means fewer than 2 could
be placed after exhausting the preference-then-fallback slot list); on every
run no placed cell is Monday period 1, no two placed cells on the same day
differ by exactly one period, every placed cell was previously empty and now
holds the CRT subject, and every other cell is untouched. -/
theorem place_crt_spec (sid : Sid) (fid : Fid) (b : Board) (fac : FacState) :
    (place_crt_ok sid fid b fac = true ↔
      (place_crt sid fid b fac).2.2.length = CRT_PERIODS_PER_WEEK) ∧
    (place_crt sid fid b fac).2.2.length ≤ 2 ∧
    (∀ s ∈ (place_crt sid fid b fac).2.2, ¬(s.1 = Day.monday ∧ s.2 = 1)) ∧
    (place_crt sid fid b fac).2.2.Pairwise
      (fun q s => ¬(q.1 = s.1 ∧ (q.2 = s.2 + 1 ∨ s.2 = q.2 + 1))) ∧
    (∀ s ∈ (place_crt sid fid b fac).2.2,
      (place_crt sid fid b fac).1 s.1 s.2 = some sid ∧ b s.1 s.2 = none) ∧
    (∀ d p, (d, p) ∉ (place_crt sid fid b fac).2.2 →
      (place_crt sid fid b fac).1 d p = b d p) ∧
    filledCount (place_crt sid fid b fac).1
      = filledCount b + (place_crt sid fid b fac).2.2.length := by
  have key := place_crt_go_invariant sid fid crt_order b fac [] b
    crt_order_sub (by simp) (by simp) List.Pairwise.nil (by simp)
    (fun d p _ => rfl) (by simp)
  exact ⟨by simp [place_crt_ok], key.1, key.2.1, key.2.2.1, key.2.2.2.1,
    key.2.2.2.2.1, key.2.2.2.2.2⟩

/-! ## Practical placement (claim C5) -/

/-- The mutable state of `place_practicals`: the board, the faculty
occupancy, the `used_days` set, and the morning/afternoon block counters. -/
structure PracState where
  board : Board
  fac : FacState
  usedDays : List Day
  morning : Nat
  afternoon : Nat

/-- `not any(board[day][period] is not None for period in block)`. -/
def blockFree (b : Board) (d : Day) (blk : Block) : Bool :=
  blk.all (fun p => decide (b d p = none))

/-- `not any(check_faculty_conflict(...) for period in block)`. -/
def blockFacFree (fac : FacState) (fid : Fid) (d : Day) (blk : Block) : Bool :=
  blk.all (fun p => !(check_faculty_conflict fid d p fac))

def setBlock (b : Board) (d : Day) (blk : Block) (sid : Sid) : Board :=
  blk.foldl (fun bb p => setCell bb d p (some sid)) b

def assignBlock (fac : FacState) (fid : Fid) (d : Day) (blk : Block) : FacState :=
  blk.foldl (fun ff p => assign_faculty fid d p ff) fac

/-- Python `set.add` on the used-days set. -/
def addDay (l : List Day) (d : Day) : List Day :=
  if d ∈ l then l else d :: l

/-- The body of the `for period in block` loop plus the counter update of
`place_practicals._dfs` after a candidate passes all three checks. -/
def placeBlock (st : PracState) (sid : Sid) (fid : Fid) (d : Day)
    (blk : Block) : PracState :=
  { board := setBlock st.board d blk sid
    fac := assignBlock st.fac fid d blk
    usedDays := addDay st.usedDays d
    morning := if blk ∈ MORNING_BLOCKS then st.morning + 1 else st.morning
    afternoon := if blk ∈ MORNING_BLOCKS then st.afternoon else st.afternoon + 1 }

/-- The candidate loop of `_dfs`: try each remaining (day, block), skipping
used days, non-free board cells and faculty conflicts; `k` is the recursive
search over the remaining subjects (a failed branch continues from the
pre-placement state, which is exactly what the Python undo code restores). -/
def prac_try_blocks (k : PracState → Option PracState) (fid : Fid) (sid : Sid) :
    List (Day × Block) → PracState → Option PracState
  | [], _ => none
  | (d, blk) :: more, st =>
    if d ∈ st.usedDays then prac_try_blocks k fid sid more st
    else if !(blockFree st.board d blk) then prac_try_blocks k fid sid more st
    else if !(blockFacFree st.fac fid d blk) then prac_try_blocks k fid sid more st
    else
      match k (placeBlock st sid fid d blk) with
      | some st2 => some st2
      | none => prac_try_blocks k fid sid more st

/-- `place_practicals._dfs`: at the end of the subject list, succeed only
when both a morning and an afternoon block were used. -/
def prac_dfs (sfm : Sid → Fid) (cands : Sid → List (Day × Block)) :
    List Sid → PracState → Option PracState
  | [], st => if st.morning > 0 ∧ st.afternoon > 0 then some st else none
  | sid :: rest, st =>
    prac_try_blocks (fun st2 => prac_dfs sfm cands rest st2) (sfm sid) sid
      (cands sid) st

/-- `day_order = DAYS[attempt % 6:] + DAYS[:attempt % 6]`. -/
def practical_day_order (attempt : Nat) : List Day :=
  DAYS.drop (attempt % DAYS.length) ++ DAYS.take (attempt % DAYS.length)

/-- `block_order`, reversed on odd attempts. -/
def practical_block_order (attempt : Nat) : List Block :=
  if attempt % 2 = 1 then [[5, 6, 7], [2, 3, 4], [1, 2, 3]]
  else VALID_PRACTICAL_BLOCKS

/-- The candidate list `candidates_by_subject[sid]`: ordered (day, block)
pairs passing the block-validity check, the cross-class practical-slot
conflict check (`pconf`, the embedded `_practical_slot_conflict_exists`
database predicate), the board-free check and the faculty check, against the
board and occupancy as they are before the search starts. -/
def practical_candidates (pconf : Day → Nat → Bool) (sfm : Sid → Fid)
    (b : Board) (fac : FacState) (attempt : Nat) (sid : Sid) :
    List (Day × Block) :=
  (practical_day_order attempt).flatMap (fun d =>
    ((practical_block_order attempt).filter (fun blk =>
      is_valid_practical_block blk &&
      !(blk.any (fun p => pconf d p)) &&
      blockFree b d blk &&
      blockFacFree fac (sfm sid) d blk)).map (fun blk => (d, blk)))

/-- `place_practicals`: build the per-subject candidate lists, sort the
subjects by ascending candidate count (Python's stable `list.sort`), and run
the depth-first search from the given board and occupancy with no used days
and zero morning/afternoon counters. -/
def place_practicals (psids : List Sid) (sfm : Sid → Fid)
    (pconf : Day → Nat → Bool) (attempt : Nat) (b : Board) (fac : FacState) :
    Option PracState :=
  let cands := practical_candidates pconf sfm b fac attempt
  let sorted := psids.insertionSort
    (fun s1 s2 => (cands s1).length ≤ (cands s2).length)
  prac_dfs sfm cands sorted ⟨b, fac, [], 0, 0⟩

/-- A successful search, as a relation: one step per subject in search order,
each step taking a candidate (day, block) whose day is unused, whose board
cells are free and whose faculty is conflict-free in the state reached so
far, and the final state has both a morning and an afternoon block. -/
inductive PracTrace (sfm : Sid → Fid) (cands : Sid → List (Day × Block)) :
    PracState → List Sid → PracState → Prop where
  | done : ∀ st, st.morning > 0 → st.afternoon > 0 →
      PracTrace sfm cands st [] st
  | step : ∀ st sid rest d blk st2,
      (d, blk) ∈ cands sid →
      d ∉ st.usedDays →
      blockFree st.board d blk = true →
      blockFacFree st.fac (sfm sid) d blk = true →
      PracTrace sfm cands (placeBlock st sid (sfm sid) d blk) rest st2 →
      PracTrace sfm cands st (sid :: rest) st2

theorem prac_try_blocks_some {k : PracState → Option PracState} {fid : Fid}
    {sid : Sid} (l : List (Day × Block)) :
    ∀ {st st2 : PracState}, prac_try_blocks k fid sid l st = some st2 →
      ∃ d blk, (d, blk) ∈ l ∧ d ∉ st.usedDays ∧
        blockFree st.board d blk = true ∧ blockFacFree st.fac fid d blk = true ∧
        k (placeBlock st sid fid d blk) = some st2 := by
  induction l with
  | nil => intro st st2 h; cases h
  | cons db more ih =>
    intro st st2 h
    rcases db with ⟨d, blk⟩
    by_cases h1 : d ∈ st.usedDays
    · rw [show prac_try_blocks k fid sid ((d, blk) :: more) st
          = prac_try_blocks k fid sid more st
        from by simp [prac_try_blocks, h1]] at h
      rcases ih h with ⟨d2, blk2, hmem, rest⟩
      exact ⟨d2, blk2, List.mem_cons_of_mem _ hmem, rest⟩
    · by_cases h2 : blockFree st.board d blk = true
      · by_cases h3 : blockFacFree st.fac fid d blk = true
        · rw [show prac_try_blocks k fid sid ((d, blk) :: more) st
              = (match k (placeBlock st sid fid d blk) with
                 | some st2 => some st2
                 | none => prac_try_blocks k fid sid more st)
            from by simp [prac_try_blocks, h1, h2, h3]] at h
          rcases hk : k (placeBlock st sid fid d blk) with _ | st3
          · rw [hk] at h
            rcases ih h with ⟨d2, blk2, hmem, rest⟩
            exact ⟨d2, blk2, List.mem_cons_of_mem _ hmem, rest⟩
          · rw [hk] at h
            cases h
            exact ⟨d, blk, List.mem_cons_self _ _, h1, h2, h3, hk⟩
        · rw [show prac_try_blocks k fid sid ((d, blk) :: more) st
              = prac_try_blocks k fid sid more st
            from by simp [prac_try_blocks, h1, h2, h3]] at h
          rcases ih h with ⟨d2, blk2, hmem, rest⟩
          exact ⟨d2, blk2, List.mem_cons_of_mem _ hmem, rest⟩
      · rw [show prac_try_blocks k fid sid ((d, blk) :: more) st
            = prac_try_blocks k fid sid more st
          from by simp [prac_try_blocks, h1, h2]] at h
        rcases ih h with ⟨d2, blk2, hmem, rest⟩
        exact ⟨d2, blk2, List.mem_cons_of_mem _ hmem, rest⟩

theorem prac_dfs_trace (sfm : Sid → Fid) (cands : Sid → List (Day × Block))
    (sids : List Sid) :
    ∀ {st st2 : PracState}, prac_dfs sfm cands sids st = some st2 →
      PracTrace sfm cands st sids st2 := by
  induction sids with
  | nil =>
    intro st st2 h
    rw [prac_dfs] at h
    by_cases hm : st.morning > 0 ∧ st.afternoon > 0
    · rw [if_pos hm] at h
      cases h
      exact PracTrace.done st hm.1 hm.2
    · rw [if_neg hm] at h
      cases h
  | cons sid rest ih =>
    intro st st2 h
    rw [prac_dfs] at h
    rcases prac_try_blocks_some (cands sid) h with
      ⟨d, blk, hmem, hused, hfreeb, hfacf, hk⟩
    exact PracTrace.step st sid rest d blk st2 hmem hused hfreeb hfacf (ih hk)

theorem setBlock_eval (b : Board) (d : Day) (blk : Block) (sid : Sid)
    (d2 : Day) (p2 : Nat) :
    setBlock b d blk sid d2 p2
      = if d2 = d ∧ p2 ∈ blk then some sid else b d2 p2 := by
  induction blk generalizing b with
  | nil => simp [setBlock]
  | cons p rest ih =>
    have hstep : setBlock b d (p :: rest) sid
        = setBlock (setCell b d p (some sid)) d rest sid := rfl
    rw [hstep, ih]
    simp only [setCell, List.mem_cons]
    by_cases hd : d2 = d <;> by_cases hp : p2 = p <;> by_cases hr : p2 ∈ rest <;>
      simp [hd, hp, hr]

theorem mem_addDay {l : List Day} {d x : Day} :
    x ∈ addDay l d ↔ x = d ∨ x ∈ l := by
  by_cases h : d ∈ l
  · simp only [addDay, if_pos h]
    constructor
    · exact Or.inr
    · rintro (rfl | hx)
      · exact h
      · exact hx
  · simp [addDay, if_neg h]

theorem valid_not_morning {blk : Block} (hval : blk ∈ VALID_PRACTICAL_BLOCKS)
    (hnm : blk ∉ MORNING_BLOCKS) : blk ∈ AFTERNOON_BLOCKS := by
  simp [VALID_PRACTICAL_BLOCKS, MORNING_BLOCKS, AFTERNOON_BLOCKS] at *
  tauto

theorem blockFree_eval {b : Board} {d : Day} {blk : Block}
    (h : blockFree b d blk = true) : ∀ p ∈ blk, b d p = none := by
  intro p hp
  have := List.all_eq_true.mp h p hp
  simpa using this

theorem pracTrace_board (sfm : Sid → Fid) (cands : Sid → List (Day × Block))
    (hv : ∀ sid db, db ∈ cands sid → db.2 ∈ VALID_PRACTICAL_BLOCKS)
    {st : PracState} {sids : List Sid} {st2 : PracState}
    (htr : PracTrace sfm cands st sids st2) :
    sids.Nodup →
    (∀ sid ∈ sids, ∀ d p, st.board d p ≠ some sid) →
    ((∀ sid ∈ sids, ∃ d blk, (d, blk) ∈ cands sid ∧
        blk ∈ VALID_PRACTICAL_BLOCKS ∧ d ∉ st.usedDays ∧
        (∀ d2 p2, (st2.board d2 p2 = some sid ↔ (d2 = d ∧ p2 ∈ blk)))) ∧
      (∀ d p, st2.board d p ≠ st.board d p →
        st.board d p = none ∧ ∃ sid ∈ sids, st2.board d p = some sid) ∧
      (∀ sid ∈ sids, ∀ d p, st2.board d p = some sid → d ∉ st.usedDays) ∧
      (∀ s1 s2 d p1 p2, s1 ∈ sids → s2 ∈ sids →
        st2.board d p1 = some s1 → st2.board d p2 = some s2 → s1 = s2) ∧
      (st.morning < st2.morning →
        ∃ sid ∈ sids, ∃ d blk, blk ∈ MORNING_BLOCKS ∧
          ∀ d2 p2, (st2.board d2 p2 = some sid ↔ (d2 = d ∧ p2 ∈ blk))) ∧
      (st.afternoon < st2.afternoon →
        ∃ sid ∈ sids, ∃ d blk, blk ∈ AFTERNOON_BLOCKS ∧
          ∀ d2 p2, (st2.board d2 p2 = some sid ↔ (d2 = d ∧ p2 ∈ blk)))) := by
  induction htr with
  | done st hm ha =>
    intro _ _
    refine ⟨by simp, fun d p h => absurd rfl h, by simp, by simp, ?_, ?_⟩
    · intro h
      omega
    · intro h
      omega
  | step st sid rest d blk stf hmem hused hfreeb hfacf htr ih =>
    intro hnd hfree
    rcases List.nodup_cons.mp hnd with ⟨hsid_nr, hnd2⟩
    have hblkvalid : blk ∈ VALID_PRACTICAL_BLOCKS := hv sid (d, blk) hmem
    have board1 : ∀ d2 p2,
        (placeBlock st sid (sfm sid) d blk).board d2 p2
          = if d2 = d ∧ p2 ∈ blk then some sid else st.board d2 p2 :=
      fun d2 p2 => setBlock_eval st.board d blk sid d2 p2
    have used1 : (placeBlock st sid (sfm sid) d blk).usedDays
        = addDay st.usedDays d := rfl
    have hfree1 : ∀ s ∈ rest, ∀ d2 p2,
        (placeBlock st sid (sfm sid) d blk).board d2 p2 ≠ some s := by
      intro s hs d2 p2
      rw [board1]
      by_cases hc : d2 = d ∧ p2 ∈ blk
      · rw [if_pos hc]
        intro he
        injection he with he2
        exact hsid_nr (he2 ▸ hs)
      · rw [if_neg hc]
        exact hfree s (List.mem_cons_of_mem sid hs) d2 p2
    rcases ih hnd2 hfree1 with ⟨C1, C2, C3, C4, C5, C6⟩
    have hkeep : ∀ d2 p2,
        (placeBlock st sid (sfm sid) d blk).board d2 p2 = some sid →
          stf.board d2 p2 = some sid := by
      intro d2 p2 h1
      by_cases hch : stf.board d2 p2
          = (placeBlock st sid (sfm sid) d blk).board d2 p2
      · rw [hch, h1]
      · rcases C2 d2 p2 hch with ⟨hnone, _⟩
        rw [h1] at hnone
        cases hnone
    have hback : ∀ d2 p2, stf.board d2 p2 = some sid →
        (placeBlock st sid (sfm sid) d blk).board d2 p2 = some sid := by
      intro d2 p2 h1
      by_cases hch : stf.board d2 p2
          = (placeBlock st sid (sfm sid) d blk).board d2 p2
      · rw [← hch, h1]
      · rcases C2 d2 p2 hch with ⟨_, s, hs, hval⟩
        rw [h1] at hval
        injection hval with hval2
        exact absurd (hval2 ▸ hs) hsid_nr
    have hcells_sid : ∀ d2 p2,
        (stf.board d2 p2 = some sid ↔ (d2 = d ∧ p2 ∈ blk)) := by
      intro d2 p2
      constructor
      · intro h1
        have h2 := hback d2 p2 h1
        rw [board1] at h2
        by_cases hc : d2 = d ∧ p2 ∈ blk
        · exact hc
        · rw [if_neg hc] at h2
          exact absurd h2 (hfree sid (List.mem_cons_self sid rest) d2 p2)
      · intro hc
        apply hkeep
        rw [board1, if_pos hc]
    refine ⟨?_, ?_, ?_, ?_, ?_, ?_⟩
    · intro s hs
      rcases List.mem_cons.mp hs with rfl | hs2
      · exact ⟨d, blk, hmem, hblkvalid, hused, hcells_sid⟩
      · rcases C1 s hs2 with ⟨d3, blk3, hm3, hv3, hu3, hc3⟩
        refine ⟨d3, blk3, hm3, hv3, fun hin => hu3 ?_, hc3⟩
        rw [used1, mem_addDay]
        exact Or.inr hin
    · intro d2 p2 hch
      by_cases hch1 : stf.board d2 p2
          = (placeBlock st sid (sfm sid) d blk).board d2 p2
      · rw [hch1, board1]
        rw [hch1, board1] at hch
        by_cases hc : d2 = d ∧ p2 ∈ blk
        · rw [if_pos hc]
          refine ⟨?_, sid, List.mem_cons_self sid rest, rfl⟩
          rcases hc with ⟨rfl, hpblk⟩
          exact blockFree_eval hfreeb p2 hpblk
        · rw [if_neg hc] at hch
          exact absurd rfl hch
      · rcases C2 d2 p2 hch1 with ⟨hnone, s, hs, hsv⟩
        rw [board1] at hnone
        by_cases hc : d2 = d ∧ p2 ∈ blk
        · rw [if_pos hc] at hnone
          cases hnone
        · rw [if_neg hc] at hnone
          exact ⟨hnone, s, List.mem_cons_of_mem sid hs, hsv⟩
    · intro s hs d2 p2 hcell
      rcases List.mem_cons.mp hs with rfl | hs2
      · rcases (hcells_sid d2 p2).mp hcell with ⟨rfl, _⟩
        exact hused
      · intro hin
        refine C3 s hs2 d2 p2 hcell ?_
        rw [used1, mem_addDay]
        exact Or.inr hin
    · intro s1 s2 d2 p1 p2 hs1 hs2 hc1 hc2
      rcases List.mem_cons.mp hs1 with rfl | hr1 <;>
        rcases List.mem_cons.mp hs2 with he2 | hr2
      · rw [he2]
      · rcases (hcells_sid d2 p1).mp hc1 with ⟨rfl, _⟩
        exfalso
        refine C3 s2 hr2 d2 p2 hc2 ?_
        rw [used1, mem_addDay]
        exact Or.inl rfl
      · subst he2
        rcases (hcells_sid d2 p2).mp hc2 with ⟨rfl, _⟩
        exfalso
        refine C3 s1 hr1 d2 p1 hc1 ?_
        rw [used1, mem_addDay]
        exact Or.inl rfl
      · exact C4 s1 s2 d2 p1 p2 hr1 hr2 hc1 hc2
    · intro hmor
      by_cases hbm : blk ∈ MORNING_BLOCKS
      · exact ⟨sid, List.mem_cons_self sid rest, d, blk, hbm, hcells_sid⟩
      · have heq : (placeBlock st sid (sfm sid) d blk).morning = st.morning := by
          simp [placeBlock, hbm]
        rcases C5 (by rw [heq]; exact hmor) with ⟨s, hs, d3, blk3, hm3, hc3⟩
        exact ⟨s, List.mem_cons_of_mem sid hs, d3, blk3, hm3, hc3⟩
    · intro haft
      by_cases hbm : blk ∈ MORNING_BLOCKS
      · have heq : (placeBlock st sid (sfm sid) d blk).afternoon
            = st.afternoon := by
          simp [placeBlock, hbm]
        rcases C6 (by rw [heq]; exact haft) with ⟨s, hs, d3, blk3, hm3, hc3⟩
        exact ⟨s, List.mem_cons_of_mem sid hs, d3, blk3, hm3, hc3⟩
      · exact ⟨sid, List.mem_cons_self sid rest, d, blk,
          valid_not_morning hblkvalid hbm, hcells_sid⟩

theorem pracTrace_final_counters {sfm : Sid → Fid}
    {cands : Sid → List (Day × Block)} {st : PracState} {sids : List Sid}
    {st2 : PracState} (htr : PracTrace sfm cands st sids st2) :
    0 < st2.morning ∧ 0 < st2.afternoon := by
  induction htr with
  | done st hm ha => exact ⟨hm, ha⟩
  | step st sid rest d blk stf hmem hused hfreeb hfacf htr ih => exact ih

theorem practical_candidates_valid (pconf : Day → Nat → Bool) (sfm : Sid → Fid)
    (b : Board) (fac : FacState) (attempt : Nat) :
    ∀ sid db, db ∈ practical_candidates pconf sfm b fac attempt sid →
      db.2 ∈ VALID_PRACTICAL_BLOCKS := by
  intro sid db hdb
  simp only [practical_candidates, List.mem_flatMap, List.mem_map,
    List.mem_filter] at hdb
  rcases hdb with ⟨d, _, blk, ⟨_, hcheck⟩, rfl⟩
  simp only [Bool.and_eq_true] at hcheck
  exact of_decide_eq_true hcheck.1.1.1

/-- C5: when `place_practicals` succeeds, the search ran as a trace in which
each subject got a candidate (day, block) whose day was unused, whose board
cells were free and whose faculty was conflict-free in the state at placement
time; on the final board every practical subject occupies exactly one valid
block on a single day, no two practical subjects share a day, every changed
cell was previously empty and holds a practical subject, and at least one
subject sits in a morning block and at least one in the afternoon block. -/
theorem place_practicals_spec (psids : List Sid) (sfm : Sid → Fid)
    (pconf : Day → Nat → Bool) (attempt : Nat) (b0 : Board) (f0 : FacState)
    (st2 : PracState) (hnd : psids.Nodup)
    (hfree : ∀ sid ∈ psids, ∀ d p, b0 d p ≠ some sid)
    (h : place_practicals psids sfm pconf attempt b0 f0 = some st2) :
    (∃ sorted : List Sid, sorted.Perm psids ∧
      PracTrace sfm (practical_candidates pconf sfm b0 f0 attempt)
        ⟨b0, f0, [], 0, 0⟩ sorted st2) ∧
    (∀ sid ∈ psids, ∃ d blk, blk ∈ VALID_PRACTICAL_BLOCKS ∧
      ∀ d2 p2, (st2.board d2 p2 = some sid ↔ (d2 = d ∧ p2 ∈ blk))) ∧
    (∀ s1 s2 d p1 p2, s1 ∈ psids → s2 ∈ psids →
      st2.board d p1 = some s1 → st2.board d p2 = some s2 → s1 = s2) ∧
    (∀ d p, st2.board d p ≠ b0 d p →
      b0 d p = none ∧ ∃ sid ∈ psids, st2.board d p = some sid) ∧
    (∃ sid ∈ psids, ∃ d blk, blk ∈ MORNING_BLOCKS ∧
      ∀ d2 p2, (st2.board d2 p2 = some sid ↔ (d2 = d ∧ p2 ∈ blk))) ∧
    (∃ sid ∈ psids, ∃ d blk, blk ∈ AFTERNOON_BLOCKS ∧
      ∀ d2 p2, (st2.board d2 p2 = some sid ↔ (d2 = d ∧ p2 ∈ blk))) := by
  have hval := practical_candidates_valid pconf sfm b0 f0 attempt
  have h2 : prac_dfs sfm (practical_candidates pconf sfm b0 f0 attempt)
      (psids.insertionSort (fun s1 s2 =>
        (practical_candidates pconf sfm b0 f0 attempt s1).length ≤
          (practical_candidates pconf sfm b0 f0 attempt s2).length))
      ⟨b0, f0, [], 0, 0⟩ = some st2 := h
  have htrace := prac_dfs_trace _ _ _ h2
  have hperm := List.perm_insertionSort (fun s1 s2 =>
    (practical_candidates pconf sfm b0 f0 attempt s1).length ≤
      (practical_candidates pconf sfm b0 f0 attempt s2).length) psids
  have hnds := hperm.nodup_iff.mpr hnd
  have hfrees : ∀ sid ∈ psids.insertionSort (fun s1 s2 =>
      (practical_candidates pconf sfm b0 f0 attempt s1).length ≤
        (practical_candidates pconf sfm b0 f0 attempt s2).length),
      ∀ d p, (⟨b0, f0, [], 0, 0⟩ : PracState).board d p ≠ some sid :=
    fun sid hs => hfree sid (hperm.mem_iff.mp hs)
  rcases pracTrace_board sfm _ hval htrace hnds hfrees with
    ⟨C1, C2, C3, C4, C5, C6⟩
  have hcnt := pracTrace_final_counters htrace
  refine ⟨⟨_, hperm, htrace⟩, ?_, ?_, ?_, ?_, ?_⟩
  · intro sid hs
    rcases C1 sid (hperm.mem_iff.mpr hs) with ⟨d, blk, _, hv3, _, hc3⟩
    exact ⟨d, blk, hv3, hc3⟩
  · intro s1 s2 d p1 p2 h1 h2b hc1 hc2
    exact C4 s1 s2 d p1 p2 (hperm.mem_iff.mpr h1) (hperm.mem_iff.mpr h2b)
      hc1 hc2
  · intro d p hch
    rcases C2 d p hch with ⟨hnone, s, hs, hv2⟩
    exact ⟨hnone, s, hperm.mem_iff.mp hs, hv2⟩
  · rcases C5 hcnt.1 with ⟨s, hs, rest⟩
    exact ⟨s, hperm.mem_iff.mp hs, rest⟩
  · rcases C6 hcnt.2 with ⟨s, hs, rest⟩
    exact ⟨s, hperm.mem_iff.mp hs, rest⟩

def c5_psids : List Sid := ["A", "B", "C"]

def c5_run : Option PracState :=
  place_practicals c5_psids (fun _ => 1) (fun _ _ => false) 0
    initialize_board emptyFac

def c5_state : PracState := c5_run.getD ⟨initialize_board, emptyFac, [], 0, 0⟩

theorem place_practicals_spec_witness :
    c5_psids.Nodup ∧
    (∀ sid ∈ c5_psids, ∀ d p, initialize_board d p ≠ some sid) ∧
    place_practicals c5_psids (fun _ => 1) (fun _ _ => false) 0
      initialize_board emptyFac = some c5_state ∧
    (∃ sid ∈ c5_psids, ∃ d blk, blk ∈ MORNING_BLOCKS ∧
      ∀ d2 p2, (c5_state.board d2 p2 = some sid ↔ (d2 = d ∧ p2 ∈ blk))) ∧
    (∃ sid ∈ c5_psids, ∃ d blk, blk ∈ AFTERNOON_BLOCKS ∧
      ∀ d2 p2, (c5_state.board d2 p2 = some sid ↔ (d2 = d ∧ p2 ∈ blk))) := by
  have hnd : c5_psids.Nodup := by decide
  have hfree : ∀ sid ∈ c5_psids, ∀ d p, initialize_board d p ≠ some sid := by
    intro sid _ d p
    simp [initialize_board]
  have hrun : place_practicals c5_psids (fun _ => 1) (fun _ _ => false) 0
      initialize_board emptyFac = some c5_state := rfl
  have key := place_practicals_spec c5_psids (fun _ => 1) (fun _ _ => false) 0
    initialize_board emptyFac c5_state hnd hfree hrun
  exact ⟨hnd, hfree, hrun, key.2.2.2.2.1, key.2.2.2.2.2⟩

/-! ## Theory placement (claims C6, C10) -/

/-- The mutable state of `place_theory`: board, occupancy, the remaining
periods per subject, the per-day per-subject count, and the set of days each
subject already uses. -/
structure TheoState where
  board : Board
  fac : FacState
  remaining : Sid → Nat
  dayCount : Day → Sid → Nat
  presence : Sid → List Day

/-- Cells of the board holding a given subject on a given day. -/
def dayCellCount (b : Board) (d : Day) (sid : Sid) : Nat :=
  (PERIODS.filter (fun p => decide (b d p = some sid))).length

/-- Cells of the board holding a given subject. -/
def cellCount (b : Board) (sid : Sid) : Nat :=
  (get_all_slots.filter (fun s => decide (b s.1 s.2 = some sid))).length

/-- The initialisation loop of `place_theory`: 5 remaining periods per theory
subject, day/subject counts and day presence scanned off the current board. -/
def theo_init (tsids : List Sid) (b : Board) (fac : FacState) : TheoState :=
  { board := b
    fac := fac
    remaining := fun sid =>
      if sid ∈ tsids then THEORY_PERIODS_PER_SUBJECT else 0
    dayCount := fun d sid => dayCellCount b d sid
    presence := fun sid =>
      DAYS.filter (fun d => PERIODS.any (fun p => decide (b d p = some sid))) }

/-- The ascending sort key of `_slot_candidates`: (same-day count, number of
days used, minus remaining, subject id), compared lexicographically. -/
def theo_key_le (st : TheoState) (d : Day) (s1 s2 : Sid) : Bool :=
  decide (st.dayCount d s1 < st.dayCount d s2) ||
  (decide (st.dayCount d s1 = st.dayCount d s2) &&
    (decide ((st.presence s1).length < (st.presence s2).length) ||
     (decide ((st.presence s1).length = (st.presence s2).length) &&
       (decide (st.remaining s2 < st.remaining s1) ||
        (decide (st.remaining s2 = st.remaining s1) && decide (s1 ≤ s2))))))

/-- `_slot_candidates(day, period, ...)`: the eligible subjects (remaining
periods, below the per-day cap of 2, not adjacent to the same subject, no
faculty conflict), sorted by the ascending key. -/
def slot_candidates (tsids : List Sid) (sfm : Sid → Fid) (st : TheoState)
    (d : Day) (p : Nat) : List Sid :=
  ((tsids.filter (fun sid =>
      decide (0 < st.remaining sid) &&
      decide (st.dayCount d sid < 2) &&
      !(decide (boardGet st.board d (p - 1) = some sid)) &&
      !(decide (boardGet st.board d (p + 1) = some sid)) &&
      !(check_faculty_conflict (sfm sid) d p st.fac)))).insertionSort
    (fun s1 s2 => theo_key_le st d s1 s2 = true)

/-- `_open_slots()`. -/
def open_slots (b : Board) : List Slot :=
  get_all_slots.filter (fun s => decide (b s.1 s.2 = none))

/-- `best is None or len(cands) < len(best_candidates)`. -/
def pickUpdate (best : Option (Slot × List Sid)) (cands : List Sid) : Bool :=
  match best with
  | none => true
  | some (_, bc) => decide (cands.length < bc.length)

/-- The scan of `_pick_next_slot`: keep the open slot with the fewest
candidates (first wins ties), stopping early when a just-taken best has at
most one candidate. -/
def pick_loop (tsids : List Sid) (sfm : Sid → Fid) (st : TheoState) :
    List Slot → Option (Slot × List Sid) → Option (Slot × List Sid)
  | [], best => best
  | s :: rest, best =>
    if pickUpdate best (slot_candidates tsids sfm st s.1 s.2) then
      (if (slot_candidates tsids sfm st s.1 s.2).length ≤ 1 then
        some (s, slot_candidates tsids sfm st s.1 s.2)
      else
        pick_loop tsids sfm st rest
          (some (s, slot_candidates tsids sfm st s.1 s.2)))
    else pick_loop tsids sfm st rest best

def pick_next_slot (tsids : List Sid) (sfm : Sid → Fid) (st : TheoState) :
    Option (Slot × List Sid) :=
  pick_loop tsids sfm st (open_slots st.board) none

/-- One placement of `_dfs`: write the subject, decrement its remaining
count, bump the day/subject count, record the day, assign the faculty. -/
def theo_place (sfm : Sid → Fid) (st : TheoState) (sid : Sid) (d : Day)
    (p : Nat) : TheoState :=
  { board := setCell st.board d p (some sid)
    fac := assign_faculty (sfm sid) d p st.fac
    remaining := fun s => if s = sid then st.remaining s - 1 else st.remaining s
    dayCount := fun d2 s =>
      if d2 = d ∧ s = sid then st.dayCount d2 s + 1 else st.dayCount d2 s
    presence := fun s =>
      if s = sid then addDay (st.presence s) d else st.presence s }

def theo_try_cands (k : Sid → Option (Board × FacState)) :
    List Sid → Option (Board × FacState)
  | [] => none
  | sid :: more =>
    match k sid with
    | some r => some r
    | none => theo_try_cands k more

/-- `place_theory._dfs`, with a fuel argument that makes the recursion
structural: every recursive call follows one placement, and a placement
needs a subject with remaining > 0, so the recursion depth is bounded by the
total remaining count; `place_theory` passes one more than that bound, so the
zero-fuel branch is unreachable there. -/
def theo_dfs (tsids : List Sid) (sfm : Sid → Fid) :
    Nat → TheoState → Option (Board × FacState)
  | 0, _ => none
  | fuel + 1, st =>
    if tsids.all (fun sid => decide (st.remaining sid = 0)) then
      (if get_all_slots.all (fun s => (st.board s.1 s.2).isSome) then
        some (st.board, st.fac)
      else none)
    else
      match pick_next_slot tsids sfm st with
      | none => none
      | some (_, []) => none
      | some (s, c :: cs) =>
        theo_try_cands
          (fun sid => theo_dfs tsids sfm fuel (theo_place sfm st sid s.1 s.2))
          (c :: cs)

/-- `place_theory`: raise the slot-count-mismatch error when the open slots
are not exactly 6 × 5 = 30, otherwise run the search; `.ok none` is the
Python function returning False, `.ok (some _)` returning True. -/
def place_theory (tsids : List Sid) (sfm : Sid → Fid) (b : Board)
    (fac : FacState) : Except String (Option (Board × FacState)) :=
  if (open_slots b).length ≠ THEORY_REQUIRED_COUNT * THEORY_PERIODS_PER_SUBJECT
  then
    .error "Weekly slot distribution does not match required 30 theory periods."
  else
    .ok (theo_dfs tsids sfm (THEORY_PERIODS_PER_SUBJECT * tsids.length + 1)
      (theo_init tsids b fac))

theorem mem_PERIODS_bounds {p : Nat} (h : p ∈ PERIODS) : 1 ≤ p ∧ p ≤ 7 := by
  simp [PERIODS] at h
  omega

theorem mem_get_all_slots {d : Day} {p : Nat} :
    (d, p) ∈ get_all_slots ↔ p ∈ PERIODS := by
  constructor
  · intro h
    simp only [get_all_slots, List.mem_flatMap, List.mem_map] at h
    rcases h with ⟨d2, _, p2, hp2, heq⟩
    cases heq
    exact hp2
  · intro h
    simp only [get_all_slots, List.mem_flatMap, List.mem_map]
    exact ⟨d, mem_DAYS d, p, h, rfl⟩

theorem nodup_PERIODS : PERIODS.Nodup := by decide

theorem cellCount_setCell_self {b : Board} {d : Day} {p : Nat}
    (hin : (d, p) ∈ get_all_slots) (hnone : b d p = none) (sid : Sid) :
    cellCount (setCell b d p (some sid)) sid = cellCount b sid + 1 := by
  refine filter_length_update nodup_get_all_slots hin ?_ ?_ ?_
  · simp [setCell]
  · simp [hnone]
  · intro a _ hax
    rcases a with ⟨ad, ap⟩
    have hne : ¬(ad = d ∧ ap = p) := fun ⟨x, y⟩ => hax (by rw [x, y])
    simp [setCell, hne]

theorem cellCount_setCell_other {b : Board} {d : Day} {p : Nat} {sid s : Sid}
    (hne : s ≠ sid) (hnone : b d p = none) :
    cellCount (setCell b d p (some sid)) s = cellCount b s := by
  unfold cellCount
  congr 1
  apply List.filter_congr
  intro a _
  rcases a with ⟨ad, ap⟩
  by_cases hc : ad = d ∧ ap = p
  · rcases hc with ⟨rfl, rfl⟩
    simp [setCell, hnone, Ne.symm hne]
  · simp [setCell, hc]

theorem dayCellCount_setCell_self {b : Board} {d : Day} {p : Nat}
    (hp : p ∈ PERIODS) (hnone : b d p = none) (sid : Sid) :
    dayCellCount (setCell b d p (some sid)) d sid = dayCellCount b d sid + 1 := by
  refine filter_length_update nodup_PERIODS hp ?_ ?_ ?_
  · simp [setCell]
  · simp [hnone]
  · intro a _ hax
    simp [setCell, hax]

theorem dayCellCount_setCell_other {b : Board} {d : Day} {p : Nat}
    {sid s : Sid} {d2 : Day} (h : ¬(d2 = d ∧ s = sid)) (hnone : b d p = none) :
    dayCellCount (setCell b d p (some sid)) d2 s = dayCellCount b d2 s := by
  unfold dayCellCount
  congr 1
  apply List.filter_congr
  intro a _
  by_cases hc : d2 = d ∧ a = p
  · rcases hc with ⟨rfl, rfl⟩
    have hs : s ≠ sid := fun he => h ⟨rfl, he⟩
    simp [setCell, hnone, Ne.symm hs]
  · simp [setCell, hc]

theorem boardGet_setCell_other {b : Board} {d : Day} {p : Nat} {v : Option Sid}
    {d2 : Day} {p2 : Nat} (h : ¬(d2 = d ∧ p2 = p)) :
    boardGet (setCell b d p v) d2 p2 = boardGet b d2 p2 := by
  simp [boardGet, setCell, h]

theorem boardGet_setCell_self {b : Board} {d : Day} {p : Nat} {v : Option Sid}
    (hp : 1 ≤ p ∧ p ≤ 7) : boardGet (setCell b d p v) d p = v := by
  simp [boardGet, setCell, hp]

theorem open_slots_mem {b : Board} {s : Slot} (h : s ∈ open_slots b) :
    s ∈ get_all_slots ∧ b s.1 s.2 = none := by
  rcases List.mem_filter.mp h with ⟨h1, h2⟩
  exact ⟨h1, of_decide_eq_true h2⟩

theorem slot_candidates_mem {tsids : List Sid} {sfm : Sid → Fid}
    {st : TheoState} {d : Day} {p : Nat} {sid : Sid}
    (h : sid ∈ slot_candidates tsids sfm st d p) :
    sid ∈ tsids ∧ 0 < st.remaining sid ∧ st.dayCount d sid < 2 ∧
    boardGet st.board d (p - 1) ≠ some sid ∧
    boardGet st.board d (p + 1) ≠ some sid ∧
    check_faculty_conflict (sfm sid) d p st.fac = false := by
  have h2 := (List.perm_insertionSort
    (fun s1 s2 => theo_key_le st d s1 s2 = true) _).mem_iff.mp h
  rcases List.mem_filter.mp h2 with ⟨hmem, hcond⟩
  simp only [Bool.and_eq_true, Bool.not_eq_true', decide_eq_true_eq,
    decide_eq_false_iff_not] at hcond
  exact ⟨hmem, hcond.1.1.1.1, hcond.1.1.1.2, hcond.1.1.2, hcond.1.2, hcond.2⟩

theorem pick_loop_found {tsids : List Sid} {sfm : Sid → Fid} {st : TheoState}
    (l : List Slot) :
    ∀ {best : Option (Slot × List Sid)} {r : Slot × List Sid},
      pick_loop tsids sfm st l best = some r →
      (r.1 ∈ l ∧ r.2 = slot_candidates tsids sfm st r.1.1 r.1.2) ∨
        best = some r := by
  induction l with
  | nil =>
    intro best r h
    exact Or.inr h
  | cons s rest ih =>
    intro best r h
    rw [pick_loop] at h
    by_cases hup : pickUpdate best (slot_candidates tsids sfm st s.1 s.2) = true
    · rw [if_pos hup] at h
      by_cases hbrk : (slot_candidates tsids sfm st s.1 s.2).length ≤ 1
      · rw [if_pos hbrk] at h
        cases h
        exact Or.inl ⟨List.mem_cons_self s rest, rfl⟩
      · rw [if_neg hbrk] at h
        rcases ih h with ⟨hm, hc⟩ | hbest
        · exact Or.inl ⟨List.mem_cons_of_mem s hm, hc⟩
        · cases hbest
          exact Or.inl ⟨List.mem_cons_self s rest, rfl⟩
    · rw [if_neg hup] at h
      rcases ih h with ⟨hm, hc⟩ | hbest
      · exact Or.inl ⟨List.mem_cons_of_mem s hm, hc⟩
      · exact Or.inr hbest

theorem pick_next_slot_found {tsids : List Sid} {sfm : Sid → Fid}
    {st : TheoState} {r : Slot × List Sid}
    (h : pick_next_slot tsids sfm st = some r) :
    r.1 ∈ open_slots st.board ∧
      r.2 = slot_candidates tsids sfm st r.1.1 r.1.2 := by
  rcases pick_loop_found (open_slots st.board) h with hgood | hbad
  · exact hgood
  · cases hbad

theorem theo_try_cands_some {k : Sid → Option (Board × FacState)}
    (l : List Sid) {r : Board × FacState}
    (h : theo_try_cands k l = some r) : ∃ sid ∈ l, k sid = some r := by
  induction l with
  | nil => cases h
  | cons sid more ih =>
    rw [theo_try_cands] at h
    rcases hk : k sid with _ | r2
    · rw [hk] at h
      rcases ih h with ⟨s2, hs2, hks⟩
      exact ⟨s2, List.mem_cons_of_mem sid hs2, hks⟩
    · rw [hk] at h
      cases h
      exact ⟨sid, List.mem_cons_self sid more, hk⟩

theorem mem_PERIODS_of_bounds {p : Nat} (h1 : 1 ≤ p) (h2 : p ≤ 7) :
    p ∈ PERIODS := by
  simp [PERIODS]
  omega

theorem boardGet_eq_some {b : Board} {d : Day} {p : Nat} {v : Sid}
    (h : boardGet b d p = some v) : b d p = some v ∧ p ∈ PERIODS := by
  unfold boardGet at h
  by_cases hr : 1 ≤ p ∧ p ≤ 7
  · rw [if_pos hr] at h
    exact ⟨h, mem_PERIODS_of_bounds hr.1 hr.2⟩
  · rw [if_neg hr] at h
    cases h

/-- The bookkeeping invariant of the theory search, for each theory subject:
board cells plus remaining count equal 5, the day/subject counters match the
board, the per-day cap of 2 holds, and no two same-day adjacent cells hold
the subject. -/
def TheoInv (tsids : List Sid) (st : TheoState) : Prop :=
  ∀ sid ∈ tsids,
    cellCount st.board sid + st.remaining sid = THEORY_PERIODS_PER_SUBJECT ∧
    (∀ d, st.dayCount d sid = dayCellCount st.board d sid) ∧
    (∀ d, st.dayCount d sid ≤ 2) ∧
    (∀ d p, ¬(boardGet st.board d p = some sid ∧
      boardGet st.board d (p + 1) = some sid))

theorem theoInv_init (tsids : List Sid) (b : Board) (fac : FacState)
    (hfree : ∀ sid ∈ tsids, ∀ d, ∀ p ∈ PERIODS, b d p ≠ some sid) :
    TheoInv tsids (theo_init tsids b fac) := by
  intro sid hs
  have hcell : cellCount b sid = 0 := by
    unfold cellCount
    rw [List.length_eq_zero]
    apply List.filter_eq_nil_iff.mpr
    intro a ha
    rcases a with ⟨ad, ap⟩
    have hap : ap ∈ PERIODS := mem_get_all_slots.mp ha
    simp only [decide_eq_true_eq]
    exact hfree sid hs ad ap hap
  have hday : ∀ d, dayCellCount b d sid = 0 := by
    intro d
    unfold dayCellCount
    rw [List.length_eq_zero]
    apply List.filter_eq_nil_iff.mpr
    intro a ha
    simp only [decide_eq_true_eq]
    exact hfree sid hs d a ha
  refine ⟨?_, fun d => rfl, ?_, ?_⟩
  · simp only [theo_init, if_pos hs]
    rw [hcell]
    omega
  · intro d
    show dayCellCount b d sid ≤ 2
    rw [hday d]
    omega
  · intro d p
    intro ⟨h1, _⟩
    rcases boardGet_eq_some h1 with ⟨hcellv, hpp⟩
    exact hfree sid hs d p hpp hcellv

theorem theoInv_place (tsids : List Sid) (sfm : Sid → Fid) {st : TheoState}
    (inv : TheoInv tsids st) {d : Day} {p : Nat} {sid : Sid}
    (hop : (d, p) ∈ open_slots st.board)
    (hc : sid ∈ slot_candidates tsids sfm st d p) :
    TheoInv tsids (theo_place sfm st sid d p) := by
  rcases open_slots_mem hop with ⟨hin, hnone⟩
  have hp : p ∈ PERIODS := mem_get_all_slots.mp hin
  have hpb := mem_PERIODS_bounds hp
  rcases slot_candidates_mem hc with ⟨hsidm, hrem, hcap, hprev, hnext, _⟩
  intro s hs
  rcases inv s hs with ⟨I1, I2, I3, I4⟩
  have hcapd := (inv sid hsidm).2.2.1
  refine ⟨?_, ?_, ?_, ?_⟩
  · show cellCount (setCell st.board d p (some sid)) s
      + (if s = sid then st.remaining s - 1 else st.remaining s)
      = THEORY_PERIODS_PER_SUBJECT
    by_cases hssid : s = sid
    · subst hssid
      rw [cellCount_setCell_self hin hnone, if_pos rfl]
      omega
    · rw [cellCount_setCell_other hssid hnone, if_neg hssid]
      exact I1
  · intro d2
    show (if d2 = d ∧ s = sid then st.dayCount d2 s + 1 else st.dayCount d2 s)
      = dayCellCount (setCell st.board d p (some sid)) d2 s
    by_cases hcnd : d2 = d ∧ s = sid
    · rcases hcnd with ⟨rfl, rfl⟩
      rw [if_pos ⟨rfl, rfl⟩, dayCellCount_setCell_self hp hnone, I2 d2]
    · rw [if_neg hcnd, dayCellCount_setCell_other hcnd hnone]
      exact I2 d2
  · intro d2
    show (if d2 = d ∧ s = sid then st.dayCount d2 s + 1 else st.dayCount d2 s) ≤ 2
    by_cases hcnd : d2 = d ∧ s = sid
    · rcases hcnd with ⟨rfl, rfl⟩
      rw [if_pos ⟨rfl, rfl⟩]
      omega
    · rw [if_neg hcnd]
      exact I3 d2
  · intro d2 p2
    show ¬(boardGet (setCell st.board d p (some sid)) d2 p2 = some s ∧
      boardGet (setCell st.board d p (some sid)) d2 (p2 + 1) = some s)
    by_cases hA : d2 = d ∧ p2 = p
    · rcases hA with ⟨rfl, rfl⟩
      intro ⟨h1, h2⟩
      rw [boardGet_setCell_self hpb] at h1
      injection h1 with h1e
      subst h1e
      rw [boardGet_setCell_other (by omega)] at h2
      exact hnext h2
    · by_cases hB : d2 = d ∧ p2 + 1 = p
      · rcases hB with ⟨rfl, hBp⟩
        intro ⟨h1, h2⟩
        rw [boardGet_setCell_other (by omega)] at h1
        rw [hBp, boardGet_setCell_self hpb] at h2
        injection h2 with h2e
        subst h2e
        have hpm : p - 1 = p2 := by omega
        rw [← hpm] at h1
        exact hprev h1
      · intro ⟨h1, h2⟩
        rw [boardGet_setCell_other hA] at h1
        rw [boardGet_setCell_other (by
          intro ⟨x, y⟩
          exact hB ⟨x, y⟩)] at h2
        exact I4 d2 p2 ⟨h1, h2⟩

theorem theo_dfs_success (tsids : List Sid) (sfm : Sid → Fid) :
    ∀ (fuel : Nat) (st : TheoState) (r : Board × FacState),
      TheoInv tsids st →
      theo_dfs tsids sfm fuel st = some r →
      (∀ sid ∈ tsids, cellCount r.1 sid = THEORY_PERIODS_PER_SUBJECT) ∧
      (∀ sid ∈ tsids, ∀ d, dayCellCount r.1 d sid ≤ 2) ∧
      (∀ sid ∈ tsids, ∀ d p, ¬(boardGet r.1 d p = some sid ∧
        boardGet r.1 d (p + 1) = some sid)) ∧
      (∀ s ∈ get_all_slots, (r.1 s.1 s.2).isSome = true) := by
  intro fuel
  induction fuel with
  | zero =>
    intro st r _ h
    cases h
  | succ fuel ih =>
    intro st r inv h
    rw [theo_dfs] at h
    by_cases hall : tsids.all (fun sid => decide (st.remaining sid = 0)) = true
    · rw [if_pos hall] at h
      by_cases hfull :
          get_all_slots.all (fun s => (st.board s.1 s.2).isSome) = true
      · rw [if_pos hfull] at h
        cases h
        refine ⟨?_, ?_, ?_, ?_⟩
        · intro sid hs
          have hrem0 : st.remaining sid = 0 :=
            of_decide_eq_true (List.all_eq_true.mp hall sid hs)
          have h1 := (inv sid hs).1
          show cellCount st.board sid = THEORY_PERIODS_PER_SUBJECT
          omega
        · intro sid hs d
          have h2 := (inv sid hs).2.1 d
          have h3 := (inv sid hs).2.2.1 d
          show dayCellCount st.board d sid ≤ 2
          omega
        · intro sid hs
          exact (inv sid hs).2.2.2
        · intro s hsm
          exact List.all_eq_true.mp hfull s hsm
      · rw [if_neg hfull] at h
        cases h
    · rw [if_neg hall] at h
      rcases hpick : pick_next_slot tsids sfm st with _ | pr
      · rw [hpick] at h
        cases h
      · rcases pr with ⟨s, cands⟩
        rcases cands with _ | ⟨c, cs⟩
        · rw [hpick] at h
          cases h
        · rw [hpick] at h
          rcases theo_try_cands_some (c :: cs) h with ⟨sid2, hsid2, hk⟩
          rcases pick_next_slot_found hpick with ⟨hopen, hcands⟩
          have hc2 : sid2 ∈ slot_candidates tsids sfm st s.1 s.2 := by
            rw [← hcands]
            exact hsid2
          have hs2 : (s.1, s.2) ∈ open_slots st.board := by
            rw [Prod.mk.eta]
            exact hopen
          exact ih _ r (theoInv_place tsids sfm inv hs2 hc2) hk

/-- C6: when `place_theory` returns True on a board that holds no theory
subject yet (as in the orchestrator, where only practicals, mentoring and CRT
precede it), every theory subject occupies exactly 5 board cells, no theory
subject occupies more than 2 periods on any single day, no two same-day
adjacent periods hold the same theory subject, and every board cell is
filled. -/
theorem place_theory_spec (tsids : List Sid) (sfm : Sid → Fid) (b : Board)
    (fac : FacState) (bf : Board) (ff : FacState)
    (hfree : ∀ sid ∈ tsids, ∀ d, ∀ p ∈ PERIODS, b d p ≠ some sid)
    (h : place_theory tsids sfm b fac = .ok (some (bf, ff))) :
    (∀ sid ∈ tsids, cellCount bf sid = THEORY_PERIODS_PER_SUBJECT) ∧
    (∀ sid ∈ tsids, ∀ d, dayCellCount bf d sid ≤ 2) ∧
    (∀ sid ∈ tsids, ∀ d p, ¬(boardGet bf d p = some sid ∧
      boardGet bf d (p + 1) = some sid)) ∧
    (∀ s ∈ get_all_slots, (bf s.1 s.2).isSome = true) := by
  unfold place_theory at h
  by_cases hlen : (open_slots b).length
      ≠ THEORY_REQUIRED_COUNT * THEORY_PERIODS_PER_SUBJECT
  · rw [if_pos hlen] at h
    cases h
  · rw [if_neg hlen] at h
    injection h with h2
    exact theo_dfs_success tsids sfm _ _ (bf, ff)
      (theoInv_init tsids b fac hfree) h2

def c6_tsids : List Sid := ["A", "B", "C", "D", "E", "F"]

def c6_sfm : Sid → Fid := fun sid =>
  if sid = "A" then 1 else if sid = "B" then 2 else if sid = "C" then 3
  else if sid = "D" then 4 else if sid = "E" then 5 else if sid = "F" then 6
  else 0

/-- Five designated cells per theory subject of the concrete witness run
(each subject skips one day; within a day the five other subjects take
periods 1-5). -/
def c6_designated (sid : Sid) : List Slot :=
  if sid = "A" then
    [(.tuesday, 1), (.wednesday, 1), (.thursday, 1), (.friday, 1), (.saturday, 1)]
  else if sid = "B" then
    [(.monday, 1), (.wednesday, 2), (.thursday, 2), (.friday, 2), (.saturday, 2)]
  else if sid = "C" then
    [(.monday, 2), (.tuesday, 2), (.thursday, 3), (.friday, 3), (.saturday, 3)]
  else if sid = "D" then
    [(.monday, 3), (.tuesday, 3), (.wednesday, 3), (.friday, 4), (.saturday, 4)]
  else if sid = "E" then
    [(.monday, 4), (.tuesday, 4), (.wednesday, 4), (.thursday, 4), (.saturday, 5)]
  else
    [(.monday, 5), (.tuesday, 5), (.wednesday, 5), (.thursday, 5), (.friday, 5)]

def c6_open_cells : List Slot :=
  DAYS.flatMap (fun d => [1, 2, 3, 4, 5].map (fun p => (d, p)))

/-- External occupancy of the witness run: each subject's faculty is busy at
every open cell except the subject's five designated cells. -/
def c6_fac : FacState :=
  c6_tsids.foldl (fun st sid =>
    (c6_open_cells.filter (fun s => decide (s ∉ c6_designated sid))).foldl
      (fun st2 s => mark_busy (c6_sfm sid) s.1 s.2 st2) st) emptyFac

/-- Board of the witness run: periods 6 and 7 of every day already filled by
a non-theory subject, leaving exactly 30 open slots. -/
def c6_board : Board := fun _ p => if p = 6 ∨ p = 7 then some "X" else none

def c6_result : Except String (Option (Board × FacState)) :=
  place_theory c6_tsids c6_sfm c6_board c6_fac

def c6_bf : Board :=
  match c6_result with
  | .ok (some (b, _)) => b
  | _ => initialize_board

def c6_ff : FacState :=
  match c6_result with
  | .ok (some (_, f)) => f
  | _ => emptyFac

set_option maxRecDepth 10000 in
theorem place_theory_spec_witness :
    (∀ sid ∈ c6_tsids, ∀ d, ∀ p ∈ PERIODS, c6_board d p ≠ some sid) ∧
    place_theory c6_tsids c6_sfm c6_board c6_fac = .ok (some (c6_bf, c6_ff)) ∧
    (∀ sid ∈ c6_tsids, cellCount c6_bf sid = THEORY_PERIODS_PER_SUBJECT) ∧
    (∀ s ∈ get_all_slots, (c6_bf s.1 s.2).isSome = true) := by
  have hfree : ∀ sid ∈ c6_tsids, ∀ d, ∀ p ∈ PERIODS,
      c6_board d p ≠ some sid := by
    intro sid hsid d p hp
    simp only [PERIODS, List.mem_cons, List.not_mem_nil, or_false] at hp
    fin_cases hsid <;>
      rcases hp with rfl | rfl | rfl | rfl | rfl | rfl | rfl <;>
      simp [c6_board]
  have hrun : place_theory c6_tsids c6_sfm c6_board c6_fac
      = .ok (some (c6_bf, c6_ff)) := rfl
  have key := place_theory_spec c6_tsids c6_sfm c6_board c6_fac c6_bf c6_ff
    hfree hrun
  exact ⟨hfree, hrun, key.1, key.2.2.2⟩

/-! ## Full-schedule validation (claim C4) -/

/-- `_count_subject_slots(board)[sid]`: the subject's cells in day-major scan
order. -/
def subject_slots (b : Board) (sid : Sid) : List Slot :=
  get_all_slots.filter (fun s => decide (b s.1 s.2 = some sid))

/-- The sorted period list of a subject's cells (Python `sorted(...)`; the
validator only sorts them after checking that all cells share one day). -/
def sorted_periods (b : Board) (sid : Sid) : List Nat :=
  ((subject_slots b sid).map Prod.snd).insertionSort (fun a c => a ≤ c)

/-- The per-practical-subject checks of the validator, first failure wins:
exactly 3 cells, one single day, and a valid contiguous block. -/
def practical_check (b : Board) (sid : Sid) : Option String :=
  if (subject_slots b sid).length ≠ PRACTICAL_PERIODS_PER_SUBJECT then
    some ("Practical subject " ++ sid ++ " must have exactly 3 periods.")
  else if ((subject_slots b sid).map Prod.fst).dedup.length ≠ 1 then
    some ("Practical subject " ++ sid ++ " must be in the same day.")
  else if !(is_valid_practical_block (sorted_periods b sid)) then
    some ("Practical subject " ++ sid
      ++ " must be one of: (1,2,3), (2,3,4), (5,6,7).")
  else none

/-- The validator's replay loop: every board cell pushed through the faculty
tracker in scan order, raising on the first conflict (the board has no empty
cell when the loop runs, so the default subject of `getD` is never used). -/
def replay_faculty (b : Board) (sfm : Sid → Fid) :
    List Slot → FacState → Except String Unit
  | [], _ => .ok ()
  | s :: rest, fac =>
    if check_faculty_conflict (sfm ((b s.1 s.2).getD "")) s.1 s.2 fac then
      .error ("Faculty clash detected for subject "
        ++ (b s.1 s.2).getD "" ++ ".")
    else
      replay_faculty b sfm rest
        (assign_faculty (sfm ((b s.1 s.2).getD "")) s.1 s.2 fac)

/-- The replay as a plain boolean: zero conflicts over the whole board. -/
def replay_ok (b : Board) (sfm : Sid → Fid) : List Slot → FacState → Bool
  | [], _ => true
  | s :: rest, fac =>
    !(check_faculty_conflict (sfm ((b s.1 s.2).getD "")) s.1 s.2 fac) &&
      replay_ok b sfm rest
        (assign_faculty (sfm ((b s.1 s.2).getD "")) s.1 s.2 fac)

/-- `validate_full_schedule`: every hard constraint over the completed board,
raising a descriptive error on the first violation. -/
def validate_full_schedule (b : Board) (theory_s practical_s : List Sid)
    (crt_s mentoring_s : Sid) (sfm : Sid → Fid) (ext : FacState) :
    Except String Unit :=
  if get_all_slots.any (fun s => decide (b s.1 s.2 = none)) then
    .error "No empty periods allowed."
  else if (get_all_slots.filter (fun s => decide (b s.1 s.2 ≠ none))).length
      ≠ 42 then
    .error "Total weekly periods must be exactly 42."
  else match theory_s.find? (fun sid =>
      decide ((subject_slots b sid).length ≠ THEORY_PERIODS_PER_SUBJECT)) with
  | some sid => .error ("Theory subject " ++ sid
      ++ " must have exactly 5 periods.")
  | none => match practical_s.findSome? (practical_check b) with
    | some msg => .error msg
    | none =>
      if practical_s.countP
            (fun sid => decide (sorted_periods b sid ∈ MORNING_BLOCKS)) = 0 ∨
          practical_s.countP
            (fun sid => decide (sorted_periods b sid ∈ AFTERNOON_BLOCKS)) = 0
      then
        .error "Practical distribution must include both morning and afternoon blocks."
      else if (subject_slots b crt_s).length ≠ CRT_PERIODS_PER_WEEK then
        .error "CRT must have exactly 2 periods."
      else if b Day.monday 1 = some crt_s then
        .error "CRT cannot be scheduled in Monday 1st period."
      else if (subject_slots b mentoring_s).length
          ≠ MENTORING_PERIODS_PER_WEEK then
        .error "Mentoring must have exactly 1 period."
      else match DAYS.findSome? (fun d =>
          (theory_s ++ [crt_s, mentoring_s]).find?
            (fun sid => decide (2 < dayCellCount b d sid))) with
      | some sid => .error ("Subject " ++ sid
          ++ " cannot appear more than 2 times in a day.")
      | none => replay_faculty b sfm get_all_slots (copy_faculty_state ext)

/-- The claim's reading of the validator's constraint list. -/
def ValidScheduleSpec (b : Board) (theory_s practical_s : List Sid)
    (crt_s mentoring_s : Sid) (sfm : Sid → Fid) (ext : FacState) : Prop :=
  (∀ s ∈ get_all_slots, b s.1 s.2 ≠ none) ∧
  (∀ sid ∈ theory_s,
    (subject_slots b sid).length = THEORY_PERIODS_PER_SUBJECT) ∧
  (∀ sid ∈ practical_s, ∃ d blk, blk ∈ VALID_PRACTICAL_BLOCKS ∧
    subject_slots b sid = blk.map (fun p => (d, p))) ∧
  (∃ sid ∈ practical_s, sorted_periods b sid ∈ MORNING_BLOCKS) ∧
  (∃ sid ∈ practical_s, sorted_periods b sid ∈ AFTERNOON_BLOCKS) ∧
  (subject_slots b crt_s).length = CRT_PERIODS_PER_WEEK ∧
  b Day.monday 1 ≠ some crt_s ∧
  (subject_slots b mentoring_s).length = MENTORING_PERIODS_PER_WEEK ∧
  (∀ d, ∀ sid ∈ theory_s ++ [crt_s, mentoring_s], dayCellCount b d sid ≤ 2) ∧
  replay_ok b sfm get_all_slots (copy_faculty_state ext) = true

theorem nodup_DAYS : DAYS.Nodup := by decide

theorem replay_faculty_ok_iff (b : Board) (sfm : Sid → Fid) (l : List Slot) :
    ∀ fac, (replay_faculty b sfm l fac = .ok ()
      ↔ replay_ok b sfm l fac = true) := by
  induction l with
  | nil =>
    intro fac
    simp [replay_faculty, replay_ok]
  | cons s rest ih =>
    intro fac
    by_cases hc :
        check_faculty_conflict (sfm ((b s.1 s.2).getD "")) s.1 s.2 fac = true
    · simp [replay_faculty, replay_ok, hc]
    · simp only [Bool.not_eq_true] at hc
      simp [replay_faculty, replay_ok, hc, ih]

theorem filter_flatMap {α β : Type} (l : List α) (f : α → List β)
    (p : β → Bool) :
    (l.flatMap f).filter p = l.flatMap (fun a => (f a).filter p) := by
  induction l with
  | nil => rfl
  | cons a l ih => simp [List.flatMap_cons, List.filter_append, ih]

theorem flatMap_single {α β : Type} {l : List α} (hnd : l.Nodup) {a : α}
    (ha : a ∈ l) (g : α → List β) (hg : ∀ x ∈ l, x ≠ a → g x = []) :
    l.flatMap g = g a := by
  induction l with
  | nil => cases ha
  | cons x l ih =>
    rcases List.nodup_cons.mp hnd with ⟨hxl, hnd2⟩
    rcases List.mem_cons.mp ha with rfl | ha2
    · have hrest : l.flatMap g = [] := by
        apply List.flatMap_eq_nil_iff.mpr
        intro y hy
        exact hg y (List.mem_cons_of_mem a hy) (fun he => hxl (he ▸ hy))
      simp [List.flatMap_cons, hrest]
    · have hgx : g x = [] :=
        hg x (List.mem_cons_self x l) (fun he => hxl (he ▸ ha2))
      simp [List.flatMap_cons, hgx,
        ih hnd2 ha2 (fun y hy hya => hg y (List.mem_cons_of_mem x hy) hya)]

theorem subject_slots_one_day {b : Board} {sid : Sid} {d0 : Day}
    (h : ∀ s ∈ subject_slots b sid, s.1 = d0) :
    subject_slots b sid
      = (PERIODS.filter (fun p => decide (b d0 p = some sid))).map
          (fun p => (d0, p)) := by
  have h1 : subject_slots b sid
      = DAYS.flatMap (fun d =>
          (PERIODS.map (fun p => (d, p))).filter
            (fun s => decide (b s.1 s.2 = some sid))) := by
    unfold subject_slots get_all_slots
    exact filter_flatMap DAYS _ _
  have h2 : ∀ x ∈ DAYS, x ≠ d0 →
      (PERIODS.map (fun p => (x, p))).filter
        (fun s => decide (b s.1 s.2 = some sid)) = [] := by
    intro x _ hxd
    apply List.filter_eq_nil_iff.mpr
    intro s hs hpred
    rcases List.mem_map.mp hs with ⟨p, hp, rfl⟩
    have hmem : (x, p) ∈ subject_slots b sid :=
      List.mem_filter.mpr ⟨mem_get_all_slots.mpr hp, hpred⟩
    exact hxd (h (x, p) hmem)
  rw [h1, flatMap_single nodup_DAYS (mem_DAYS d0) _ h2, List.filter_map]
  rfl

theorem filled_count_42 {b : Board}
    (h : ∀ s ∈ get_all_slots, b s.1 s.2 ≠ none) :
    (get_all_slots.filter (fun s => decide (b s.1 s.2 ≠ none))).length = 42 := by
  rw [List.filter_eq_self.mpr (fun a ha => decide_eq_true (h a ha))]
  decide

theorem dedup_three (d : Day) : ([d, d, d] : List Day).dedup = [d] := by
  rw [List.dedup_cons_of_mem (by simp), List.dedup_cons_of_mem (by simp)]
  rfl

theorem sorted_PERIODS : List.Pairwise (fun a c : Nat => a ≤ c) PERIODS := by
  decide

theorem practical_check_none_iff {b : Board} {sid : Sid} :
    practical_check b sid = none ↔
      ∃ d blk, blk ∈ VALID_PRACTICAL_BLOCKS ∧
        subject_slots b sid = blk.map (fun p => (d, p)) := by
  constructor
  · intro h
    unfold practical_check at h
    by_cases h1 : (subject_slots b sid).length ≠ PRACTICAL_PERIODS_PER_SUBJECT
    · rw [if_pos h1] at h
      cases h
    rw [if_neg h1] at h
    by_cases h2 : ((subject_slots b sid).map Prod.fst).dedup.length ≠ 1
    · rw [if_pos h2] at h
      cases h
    rw [if_neg h2] at h
    by_cases h3 : is_valid_practical_block (sorted_periods b sid) = true
    swap
    · rw [if_pos (by simp [h3])] at h
      cases h
    push_neg at h1 h2
    rcases List.length_eq_one.mp h2 with ⟨d0, hd0⟩
    have hall : ∀ s ∈ subject_slots b sid, s.1 = d0 := by
      intro s hs
      have hmem : s.1 ∈ ((subject_slots b sid).map Prod.fst).dedup :=
        List.mem_dedup.mpr (List.mem_map_of_mem Prod.fst hs)
      rw [hd0] at hmem
      simpa using hmem
    have hstruct := subject_slots_one_day hall
    have hsnd : (subject_slots b sid).map Prod.snd
        = PERIODS.filter (fun p => decide (b d0 p = some sid)) := by
      rw [hstruct, List.map_map]
      simp
    have hsp : sorted_periods b sid
        = PERIODS.filter (fun p => decide (b d0 p = some sid)) := by
      unfold sorted_periods
      rw [hsnd]
      exact List.Sorted.insertionSort_eq (List.Pairwise.filter _ sorted_PERIODS)
    refine ⟨d0, sorted_periods b sid, of_decide_eq_true h3, ?_⟩
    rw [hsp, ← hstruct]
  · rintro ⟨d, blk, hblk, hslots⟩
    have hsnd2 : (subject_slots b sid).map Prod.snd = blk := by
      rw [hslots, List.map_map]
      simp
    have hdays : (subject_slots b sid).map Prod.fst
        = blk.map (fun _ => d) := by
      rw [hslots, List.map_map]
      rfl
    simp only [VALID_PRACTICAL_BLOCKS, List.mem_cons, List.not_mem_nil,
      or_false] at hblk
    unfold practical_check sorted_periods
    rcases hblk with rfl | rfl | rfl <;>
      rw [hsnd2, hdays] <;>
      rw [show (subject_slots b sid).length = 3 from by
        rw [hslots, List.length_map]
        rfl] <;>
      simp only [List.map_cons, List.map_nil, dedup_three] <;>
      norm_num <;>
      simp [is_valid_practical_block, VALID_PRACTICAL_BLOCKS,
        PRACTICAL_PERIODS_PER_SUBJECT]

theorem findSome?_mem {α β : Type} {l : List α} {f : α → Option β} {v : β}
    (h : l.findSome? f = some v) : ∃ a ∈ l, f a = some v := by
  induction l with
  | nil => cases h
  | cons a l ih =>
    rw [List.findSome?_cons] at h
    rcases hf : f a with _ | w
    · rw [hf] at h
      rcases ih h with ⟨a2, ha2, hfa2⟩
      exact ⟨a2, List.mem_cons_of_mem a ha2, hfa2⟩
    · rw [hf] at h
      cases h
      exact ⟨a, List.mem_cons_self a l, hf⟩

theorem findSome?_none {α β : Type} {l : List α} {f : α → Option β}
    (h : l.findSome? f = none) : ∀ a ∈ l, f a = none := by
  induction l with
  | nil => intro a ha; cases ha
  | cons a l ih =>
    rw [List.findSome?_cons] at h
    rcases hf : f a with _ | w
    · rw [hf] at h
      intro a2 ha2
      rcases List.mem_cons.mp ha2 with rfl | ha3
      · exact hf
      · exact ih h a2 ha3
    · rw [hf] at h
      cases h

/-- C4: the validator returns normally if and only if the completed board
satisfies every listed constraint: all 42 cells filled; every theory subject
exactly 5 cells; every practical subject exactly one valid 3-period block on
a single day; at least one morning and one afternoon practical block; CRT
exactly 2 cells and not in Monday period 1; mentoring exactly 1 cell; no
theory/CRT/mentoring subject more than twice on a day; and replaying the
whole board through the tracker seeded from a copy of the external baseline
produces no conflict; otherwise it raises an error on the first violation. -/
theorem validate_full_schedule_iff (b : Board) (theory_s practical_s : List Sid)
    (crt_s mentoring_s : Sid) (sfm : Sid → Fid) (ext : FacState) :
    validate_full_schedule b theory_s practical_s crt_s mentoring_s sfm ext
        = .ok ()
      ↔ ValidScheduleSpec b theory_s practical_s crt_s mentoring_s sfm ext := by
  unfold validate_full_schedule ValidScheduleSpec
  by_cases c1 : get_all_slots.any (fun s => decide (b s.1 s.2 = none)) = true
  · rw [if_pos c1]
    constructor
    · intro h
      cases h
    · rintro ⟨hfill, -⟩
      rcases List.any_eq_true.mp c1 with ⟨s, hs, hv⟩
      exact absurd (of_decide_eq_true hv) (hfill s hs)
  · rw [if_neg c1]
    have hfill : ∀ s ∈ get_all_slots, b s.1 s.2 ≠ none := by
      intro s hs hv
      exact c1 (List.any_eq_true.mpr ⟨s, hs, decide_eq_true hv⟩)
    rw [if_neg (show ¬((get_all_slots.filter
        (fun s => decide (b s.1 s.2 ≠ none))).length ≠ 42) from by
      rw [filled_count_42 hfill]
      exact fun h => h rfl)]
    rcases hfind3 : theory_s.find? (fun sid =>
        decide ((subject_slots b sid).length ≠ THEORY_PERIODS_PER_SUBJECT))
      with _ | sid3
    swap
    · simp only [hfind3]
      constructor
      · intro h
        cases h
      · rintro ⟨-, hth, -⟩
        have hv := List.find?_some hfind3
        simp only [decide_eq_true_eq] at hv
        exact absurd (hth sid3 (List.mem_of_find?_eq_some hfind3)) hv
    · simp only [hfind3]
      have hth : ∀ sid ∈ theory_s,
          (subject_slots b sid).length = THEORY_PERIODS_PER_SUBJECT := by
        intro sid hs
        by_contra hne
        exact absurd (decide_eq_true hne) (by
          simpa using List.find?_eq_none.mp hfind3 sid hs)
      rcases hfind4 : practical_s.findSome? (practical_check b) with _ | msg
      swap
      · simp only [hfind4]
        constructor
        · intro h
          cases h
        · rintro ⟨-, -, hprac, -⟩
          rcases findSome?_mem hfind4 with ⟨sid4, hs4, hchk⟩
          rw [practical_check_none_iff.mpr (hprac sid4 hs4)] at hchk
          cases hchk
      · simp only [hfind4]
        have hprac : ∀ sid ∈ practical_s, ∃ d blk,
            blk ∈ VALID_PRACTICAL_BLOCKS ∧
              subject_slots b sid = blk.map (fun p => (d, p)) :=
          fun sid hs =>
            practical_check_none_iff.mp (findSome?_none hfind4 sid hs)
        by_cases c5 : practical_s.countP
              (fun sid => decide (sorted_periods b sid ∈ MORNING_BLOCKS)) = 0 ∨
            practical_s.countP
              (fun sid => decide (sorted_periods b sid ∈ AFTERNOON_BLOCKS)) = 0
        · rw [if_pos c5]
          constructor
          · intro h
            cases h
          · rintro ⟨-, -, -, hmorn, haft, -⟩
            rcases hmorn with ⟨sm, hsm, hm⟩
            rcases haft with ⟨sa, hsa, ha⟩
            have hm2 : 0 < practical_s.countP
                (fun sid => decide (sorted_periods b sid ∈ MORNING_BLOCKS)) :=
              List.countP_pos_iff.mpr ⟨sm, hsm, decide_eq_true hm⟩
            have ha2 : 0 < practical_s.countP
                (fun sid => decide (sorted_periods b sid ∈ AFTERNOON_BLOCKS)) :=
              List.countP_pos_iff.mpr ⟨sa, hsa, decide_eq_true ha⟩
            rcases c5 with c5 | c5
            · omega
            · omega
        · rw [if_neg c5]
          push_neg at c5
          have hmorn : ∃ sid ∈ practical_s,
              sorted_periods b sid ∈ MORNING_BLOCKS := by
            rcases List.countP_pos_iff.mp
              (Nat.pos_of_ne_zero c5.1) with ⟨s, hs, hv⟩
            exact ⟨s, hs, of_decide_eq_true hv⟩
          have haft : ∃ sid ∈ practical_s,
              sorted_periods b sid ∈ AFTERNOON_BLOCKS := by
            rcases List.countP_pos_iff.mp
              (Nat.pos_of_ne_zero c5.2) with ⟨s, hs, hv⟩
            exact ⟨s, hs, of_decide_eq_true hv⟩
          by_cases c6 : (subject_slots b crt_s).length ≠ CRT_PERIODS_PER_WEEK
          · rw [if_pos c6]
            constructor
            · intro h
              cases h
            · rintro ⟨-, -, -, -, -, hcrt, -⟩
              exact (c6 hcrt).elim
          · rw [if_neg c6]
            push_neg at c6
            by_cases c7 : b Day.monday 1 = some crt_s
            · rw [if_pos c7]
              constructor
              · intro h
                cases h
              · rintro ⟨-, -, -, -, -, -, hmon, -⟩
                exact (hmon c7).elim
            · rw [if_neg c7]
              by_cases c8 : (subject_slots b mentoring_s).length
                  ≠ MENTORING_PERIODS_PER_WEEK
              · rw [if_pos c8]
                constructor
                · intro h
                  cases h
                · rintro ⟨-, -, -, -, -, -, -, hment, -⟩
                  exact (c8 hment).elim
              · rw [if_neg c8]
                push_neg at c8
                rcases hfind9 : DAYS.findSome? (fun d =>
                    (theory_s ++ [crt_s, mentoring_s]).find?
                      (fun sid => decide (2 < dayCellCount b d sid)))
                  with _ | sid9
                swap
                · simp only [hfind9]
                  constructor
                  · intro h
                    cases h
                  · rintro ⟨-, -, -, -, -, -, -, -, hcap, -⟩
                    rcases findSome?_mem hfind9 with ⟨d9, _, hf9⟩
                    have hv := List.find?_some hf9
                    simp only [decide_eq_true_eq] at hv
                    have hm9 := List.mem_of_find?_eq_some hf9
                    have := hcap d9 sid9 hm9
                    omega
                · simp only [hfind9]
                  have hcap : ∀ d, ∀ sid ∈ theory_s ++ [crt_s, mentoring_s],
                      dayCellCount b d sid ≤ 2 := by
                    intro d sid hs
                    have hnone := findSome?_none hfind9 d (mem_DAYS d)
                    have := List.find?_eq_none.mp hnone sid hs
                    simp only [decide_eq_true_eq] at this
                    omega
                  constructor
                  · intro h
                    exact ⟨hfill, hth, hprac, hmorn, haft, c6, c7, c8, hcap,
                      (replay_faculty_ok_iff b sfm get_all_slots _).mp h⟩
                  · rintro ⟨-, -, -, -, -, -, -, -, -, hrep⟩
                    exact (replay_faculty_ok_iff b sfm get_all_slots _).mpr hrep

/-! ## The orchestrator (claims C1, C8) -/

/-- What one attempt of `auto_generate_timetable` leaves behind: a placement
phase returned False (the `board` variable keeps whatever that phase left on
it — empty for practicals and theory, whose searches undo fully; partial for
CRT), the validator raised (the code sets `board = None`), or the attempt
validated. -/
inductive AttemptResult where
  | phaseFail (msg : String) (board : Board)
  | valFail (msg : String)
  | success (board : Board)

/-- The body of the `for attempt in range(10)` loop: fresh board, a copy of
the external occupancy, then practicals → mentoring → CRT → theory →
validation, recording the phase-specific message on failure; the
slot-count-mismatch error raised inside `place_theory` propagates (it is not
caught by the loop, whose try only wraps the validator). -/
def run_attempt (psids tsids : List Sid) (crt_sid ment_sid : Sid)
    (sfm : Sid → Fid) (pconf : Day → Nat → Bool) (ext : FacState)
    (attempt : Nat) : Except String AttemptResult :=
  let board := initialize_board
  let fac := copy_faculty_state ext
  match place_practicals psids sfm pconf attempt board fac with
  | none => .ok (.phaseFail
      "Unable to place practical blocks with updated constraints." board)
  | some st1 =>
    match place_mentoring ment_sid (sfm ment_sid) st1.board st1.fac with
    | none => .ok (.phaseFail
        "Unable to place Mentoring period without faculty clash." st1.board)
    | some (b2, f2) =>
      match place_crt crt_sid (sfm crt_sid) b2 f2 with
      | (b3, f3, placed) =>
        if placed.length ≠ CRT_PERIODS_PER_WEEK then
          .ok (.phaseFail
            "Unable to place CRT periods without faculty clash." b3)
        else
          match place_theory tsids sfm b3 f3 with
          | .error e => .error e
          | .ok none => .ok (.phaseFail
              "Unable to place theory subjects with current constraints." b3)
          | .ok (some (b4, _)) =>
            match validate_full_schedule b4 tsids psids crt_sid ment_sid
                sfm ext with
            | .error e => .ok (.valFail e)
            | .ok () => .ok (.success b4)

/-- The attempt loop, threading the Python `board` and `last_error`
variables: a phase failure leaves the partial board bound (the code only
resets `board = None` on a validation failure), success breaks. -/
def gen_loop (run : Nat → Except String AttemptResult) :
    List Nat → Option Board → Option String →
    Except String (Option Board × Option String)
  | [], board, last => .ok (board, last)
  | a :: rest, _, last =>
    match run a with
    | .error e => .error e
    | .ok (.phaseFail msg bd) => gen_loop run rest (some bd) (some msg)
    | .ok (.valFail msg) => gen_loop run rest none (some msg)
    | .ok (.success bd) => .ok (some bd, last)

/-- The observable outcome of `auto_generate_timetable` past subject-pool
loading: a configuration error raised outside the loop, the exhaustion raise
of line 806 (`board is None`), a KeyError crash while building the rows
(`subject_map[None]` on an empty cell; the surrounding transaction rolls the
already-issued delete back), or a committed delete-and-insert of the 42
rows. -/
inductive GenOutcome where
  | configError (msg : String)
  | exhausted (msg : String)
  | keyError
  | persisted (rows : List (Slot × Sid))

/-- `auto_generate_timetable` from the attempt loop on: run up to 10
attempts; if the `board` variable is None afterwards raise the last recorded
message, otherwise delete the stored timetable and build one row per cell
(crashing with a KeyError on the first empty cell, since None is not a key
of `subject_map`). -/
def auto_generate_timetable (psids tsids : List Sid) (crt_sid ment_sid : Sid)
    (sfm : Sid → Fid) (pconf : Day → Nat → Bool) (ext : FacState) :
    GenOutcome :=
  match gen_loop (run_attempt psids tsids crt_sid ment_sid sfm pconf ext)
      (List.range 10) none none with
  | .error e => .configError e
  | .ok (none, last) => .exhausted (last.getD "Unable to generate timetable.")
  | .ok (some bd, _) =>
    if get_all_slots.any (fun s => decide (bd s.1 s.2 = none)) then
      .keyError
    else
      .persisted (get_all_slots.map (fun s => (s, (bd s.1 s.2).getD "")))

/-- C8: the per-attempt working occupancy is `_copy_faculty_state` of the
external baseline, and that deep copy equals the baseline as a value: the
busy sets are rebuilt element by element (`set(slots)`) and both counter
dicts are copied entry by entry, so the phases, which mutate only the copy
(modeled by state passing: every phase takes the working state and returns
the updated one, and the validator's replay also starts from a fresh copy),
can never be observed through the baseline, which therefore still equals its
initial value when `auto_generate_timetable` returns or raises. -/
theorem copy_faculty_state_id (ext : FacState) :
    copy_faculty_state ext = ext ∧
    (∀ psids tsids crt_sid ment_sid sfm pconf attempt,
      run_attempt psids tsids crt_sid ment_sid sfm pconf ext attempt
        = run_attempt psids tsids crt_sid ment_sid sfm pconf
            (copy_faculty_state ext) attempt) := by
  have hcopy : copy_faculty_state ext = ext := by
    cases ext
    unfold copy_faculty_state
    simp
  exact ⟨hcopy, fun _ _ _ _ _ _ _ => by rw [hcopy]⟩

/-- C1, divergence witness: an input whose 10 attempts all fail in the
practicals phase (every practical slot externally conflicted). The loop ends
with the `board` variable still bound to the (empty) board of attempt 9 —
not None, because only a validation failure resets it — so the exhaustion
raise of line 806 is skipped, the stored timetable is deleted and the row
build crashes with a KeyError on the first empty cell instead of raising a
TimetableGenerationError with the last recorded message. -/
theorem auto_generate_total_failure_keyError :
    (∀ a ∈ List.range 10, ∃ bd,
      run_attempt ["A", "B", "C"] c6_tsids "K" "M" (fun _ => 1)
        (fun _ _ => true) emptyFac a
        = .ok (.phaseFail
            "Unable to place practical blocks with updated constraints." bd)) ∧
    auto_generate_timetable ["A", "B", "C"] c6_tsids "K" "M" (fun _ => 1)
      (fun _ _ => true) emptyFac = GenOutcome.keyError := by
  constructor
  · intro a ha
    fin_cases ha <;> exact ⟨_, rfl⟩
  · rfl

/-! ## Cells filled after the first three phases (claim C10) -/

theorem valid_block_props : ∀ blk ∈ VALID_PRACTICAL_BLOCKS,
    blk.Nodup ∧ (∀ p ∈ blk, p ∈ PERIODS) ∧ blk.length = 3 := by
  decide

theorem setBlock_filledCount {b : Board} {d : Day} {blk : Block} {sid : Sid}
    (hnd : blk.Nodup) (hsub : ∀ p ∈ blk, p ∈ PERIODS)
    (hfree : ∀ p ∈ blk, b d p = none) :
    filledCount (setBlock b d blk sid) = filledCount b + blk.length := by
  induction blk generalizing b with
  | nil => simp [setBlock]
  | cons p rest ih =>
    have hstep : setBlock b d (p :: rest) sid
        = setBlock (setCell b d p (some sid)) d rest sid := rfl
    rcases List.nodup_cons.mp hnd with ⟨hpr, hnd2⟩
    rw [hstep, ih hnd2 (fun q hq => hsub q (List.mem_cons_of_mem p hq))
      (fun q hq => by
        rw [setCell_other (fun hc => hpr (by rw [← hc.2]; exact hq))]
        exact hfree q (List.mem_cons_of_mem p hq))]
    rw [filledCount_setCell
      (mem_get_all_slots.mpr (hsub p (List.mem_cons_self p rest)))
      (hfree p (List.mem_cons_self p rest)) sid]
    simp only [List.length_cons]
    omega

theorem pracTrace_filledCount (sfm : Sid → Fid)
    (cands : Sid → List (Day × Block))
    (hv : ∀ sid db, db ∈ cands sid → db.2 ∈ VALID_PRACTICAL_BLOCKS)
    {st : PracState} {sids : List Sid} {st2 : PracState}
    (htr : PracTrace sfm cands st sids st2) :
    filledCount st2.board = filledCount st.board + 3 * sids.length := by
  induction htr with
  | done st _ _ => simp
  | step st sid rest d blk stf hmem hused hfreeb hfacf htr ih =>
    rcases valid_block_props blk (hv sid (d, blk) hmem) with ⟨hnd, hsub, hlen⟩
    have hboard : (placeBlock st sid (sfm sid) d blk).board
        = setBlock st.board d blk sid := rfl
    rw [ih, hboard,
      setBlock_filledCount hnd hsub (blockFree_eval hfreeb), hlen]
    simp only [List.length_cons]
    omega

theorem mentoring_order_sub : ∀ s ∈ mentoring_order, s ∈ get_all_slots := by
  decide

theorem place_mentoring_filledCount {sid : Sid} {fid : Fid} {b : Board}
    {fac : FacState} {b2 : Board} {f2 : FacState}
    (h : place_mentoring sid fid b fac = some (b2, f2)) :
    filledCount b2 = filledCount b + 1 := by
  rw [place_mentoring, place_mentoring_go_eq] at h
  rcases hf : mentoring_order.find? (mentoring_ok b fac fid) with _ | s
  · rw [hf] at h
    cases h
  · rw [hf] at h
    have hX := Option.some.inj h
    have hb2 : b2 = setCell b s.1 s.2 (some sid) := (congrArg Prod.fst hX).symm
    have hok := List.find?_some hf
    have hnone : b s.1 s.2 = none := by
      rcases hb : b s.1 s.2 with _ | v
      · rfl
      · rw [mentoring_ok, hb] at hok
        simp at hok
    have hin : (s.1, s.2) ∈ get_all_slots := by
      rw [Prod.mk.eta]
      exact mentoring_order_sub s (List.mem_of_find?_eq_some hf)
    rw [hb2, filledCount_setCell hin hnone sid]

theorem filter_compl_length {α : Type} (l : List α) (p q : α → Bool)
    (h : ∀ a ∈ l, q a = !(p a)) :
    (l.filter p).length + (l.filter q).length = l.length := by
  induction l with
  | nil => rfl
  | cons a l ih =>
    have hrest := ih (fun x hx => h x (List.mem_cons_of_mem a hx))
    have ha := h a (List.mem_cons_self a l)
    rcases hp : p a
    · rw [hp] at ha
      simp [List.filter_cons, hp, ha]
      omega
    · rw [hp] at ha
      simp [List.filter_cons, hp, ha]
      omega

theorem open_filled_partition (b : Board) :
    (open_slots b).length + filledCount b = 42 := by
  unfold open_slots filledCount
  rw [filter_compl_length get_all_slots _ _ (fun s _ => by
    rcases hb : b s.1 s.2 <;> simp [hb])]
  decide

/-- C10: whenever `place_theory` is reached by the orchestrator — after
`place_practicals` (3 subjects), `place_mentoring` and `place_crt` all
succeeded on a board that started empty — exactly 12 cells are filled
(9 practical + 1 mentoring + 2 CRT), so the open-slot count is 30 and the
slot-count-mismatch error branch inside `place_theory` is unreachable on
that path. -/
theorem prefill_twelve_cells (psids tsids : List Sid) (crt_sid ment_sid : Sid)
    (sfm : Sid → Fid) (pconf : Day → Nat → Bool) (attempt : Nat)
    (fac0 : FacState) (st1 : PracState) (b2 : Board) (f2 : FacState)
    (hlen : psids.length = 3)
    (h1 : place_practicals psids sfm pconf attempt initialize_board fac0
      = some st1)
    (h2 : place_mentoring ment_sid (sfm ment_sid) st1.board st1.fac
      = some (b2, f2))
    (h3 : place_crt_ok crt_sid (sfm crt_sid) b2 f2 = true) :
    filledCount (place_crt crt_sid (sfm crt_sid) b2 f2).1 = 12 ∧
    (open_slots (place_crt crt_sid (sfm crt_sid) b2 f2).1).length = 30 ∧
    ∃ r, place_theory tsids sfm (place_crt crt_sid (sfm crt_sid) b2 f2).1
      (place_crt crt_sid (sfm crt_sid) b2 f2).2.1 = Except.ok r := by
  have h1b : prac_dfs sfm (practical_candidates pconf sfm initialize_board
      fac0 attempt)
      (psids.insertionSort (fun s1 s2 =>
        (practical_candidates pconf sfm initialize_board fac0 attempt
          s1).length ≤
        (practical_candidates pconf sfm initialize_board fac0 attempt
          s2).length))
      ⟨initialize_board, fac0, [], 0, 0⟩ = some st1 := h1
  have htrace := prac_dfs_trace _ _ _ h1b
  have hcount1 := pracTrace_filledCount sfm _
    (practical_candidates_valid pconf sfm initialize_board fac0 attempt)
    htrace
  have hsortlen : (psids.insertionSort (fun s1 s2 =>
      (practical_candidates pconf sfm initialize_board fac0 attempt
        s1).length ≤
      (practical_candidates pconf sfm initialize_board fac0 attempt
        s2).length)).length = psids.length :=
    (List.perm_insertionSort _ psids).length_eq
  have hempty : filledCount initialize_board = 0 := by decide
  have hst1 : filledCount st1.board = 9 := by
    have hinit : filledCount
        (⟨initialize_board, fac0, [], 0, 0⟩ : PracState).board = 0 := hempty
    rw [hcount1, hsortlen, hlen, hinit]
  have hb2 : filledCount b2 = 10 := by
    rw [place_mentoring_filledCount h2, hst1]
  have hcrt := place_crt_spec crt_sid (sfm crt_sid) b2 f2
  have hplaced2 : (place_crt crt_sid (sfm crt_sid) b2 f2).2.2.length
      = CRT_PERIODS_PER_WEEK := hcrt.1.mp h3
  have hb3 : filledCount (place_crt crt_sid (sfm crt_sid) b2 f2).1 = 12 := by
    rw [hcrt.2.2.2.2.2.2, hb2, hplaced2]
    rfl
  have hopen : (open_slots (place_crt crt_sid (sfm crt_sid) b2 f2).1).length
      = 30 := by
    have hpart := open_filled_partition (place_crt crt_sid (sfm crt_sid) b2 f2).1
    omega
  refine ⟨hb3, hopen, ?_⟩
  unfold place_theory
  rw [if_neg (show ¬((open_slots
      (place_crt crt_sid (sfm crt_sid) b2 f2).1).length
      ≠ THEORY_REQUIRED_COUNT * THEORY_PERIODS_PER_SUBJECT) from by
    rw [hopen]
    exact fun h => h rfl)]
  exact ⟨_, rfl⟩

def c10_m : Option (Board × FacState) :=
  place_mentoring "M" 1 c5_state.board c5_state.fac

def c10_b2 : Board := (c10_m.getD (initialize_board, emptyFac)).1

def c10_f2 : FacState := (c10_m.getD (initialize_board, emptyFac)).2

theorem prefill_twelve_cells_witness :
    c5_psids.length = 3 ∧
    place_practicals c5_psids (fun _ => 1) (fun _ _ => false) 0
      initialize_board emptyFac = some c5_state ∧
    place_mentoring "M" 1 c5_state.board c5_state.fac
      = some (c10_b2, c10_f2) ∧
    place_crt_ok "K" 1 c10_b2 c10_f2 = true ∧
    filledCount (place_crt "K" 1 c10_b2 c10_f2).1 = 12 ∧
    (open_slots (place_crt "K" 1 c10_b2 c10_f2).1).length = 30 := by
  have hlen : c5_psids.length = 3 := rfl
  have h1 : place_practicals c5_psids (fun _ => 1) (fun _ _ => false) 0
      initialize_board emptyFac = some c5_state := rfl
  have h2 : place_mentoring "M" 1 c5_state.board c5_state.fac
      = some (c10_b2, c10_f2) := rfl
  have h3 : place_crt_ok "K" 1 c10_b2 c10_f2 = true := rfl
  have key := prefill_twelve_cells c5_psids c6_tsids "K" "M" (fun _ => 1)
    (fun _ _ => false) 0 emptyFac c5_state c10_b2 c10_f2 hlen h1 h2 h3
  exact ⟨hlen, h1, h2, h3, key.1, key.2.1⟩
